import Mathlib

/-!
Verification of the structured-completion extraction logic of the ATS
repository (src/job_requirements.py, src/match.py, src/report.py).

The shallow embedding works over `Text := List Char`.  The regular
expression searches of `generate_job_requirements` (lines 101-105), the
cleanup step (line 110), the `json.loads` call (line 112), the error
messages (lines 115, 117, 120, 122) and the per-page output handling of
`match.py` / `report.py` are translated into executable Lean functions.

Modelling notes for the Python standard library pieces used by the code:
* `json.loads` is embedded as `jsonDecodeE`, a fuel-based recursive descent
  mirror of CPython's scanner: JSON whitespace is space/tab/LF/CR; object and
  array syntax, `null`/`true`/`false`, numbers via the scanner's regular
  expression (maximal munch, `0`-leading integers rejected), `NaN`,
  `Infinity`, `-Infinity`, and strings with the strict control-character
  check and the standard escapes including `\uXXXX` (exactly four hex
  digits, as in the C scanner).  Numbers are kept as their validated
  lexemes and escaped code units are recorded as parsed; combining a
  surrogate pair into one code point is not modelled — that choice never
  affects decode success or any comparison between decodes performed by
  this development, which always compares decodes of related strings.
  Error details are modelled coarsely ("Expecting value" / "Extra data")
  since the claims only require that a decode-error detail is carried.
  Objects are kept as member lists in parse order.
* `str.strip()` is embedded as `pyStrip` over the whitespace characters of
  the Latin-1 range recognised by Python (exotic higher Unicode space
  separators are outside the model and never produced by the code paths
  considered).
* `str.replace('```', '')` is embedded as `removeTicks`, removing
  non-overlapping occurrences left to right exactly as Python does.
* `re.search` with pattern "```json\n(.*?)\n```" under DOTALL finds the
  leftmost position where the fence opener matches and then the shortest
  interior; this is embedded as `fencedSearch` via first-occurrence
  computations, and `re.search` with pattern "({.*})" under DOTALL (first
  `{` to last `}`, greedily) is embedded as `braceSearch`.
-/

set_option maxHeartbeats 1000000

namespace ATS

/-- Model output text, as a list of Unicode characters. -/
abbrev Text : Type := List Char

/-- JSON whitespace characters skipped by the CPython json scanner. -/
def isJsonWs (c : Char) : Bool :=
  c == ' ' || c == '\t' || c == '\n' || c == '\r'

/-- Whitespace characters (Latin-1 range) stripped by Python `str.strip()`. -/
def isPyWs (c : Char) : Bool :=
  c == ' ' || c == '\t' || c == '\n' || c == '\r' || c == '\x0b' || c == '\x0c' ||
  c == '\x1c' || c == '\x1d' || c == '\x1e' || c == '\x1f' || c == '\x85' || c == '\xa0'

/-- Skip JSON whitespace, as the json scanner's whitespace match does. -/
def skipWs (s : Text) : Text := s.dropWhile isJsonWs

/-- Python `str.strip()`: drop leading and trailing whitespace. -/
def pyStrip (s : Text) : Text :=
  ((s.dropWhile isPyWs).reverse.dropWhile isPyWs).reverse

/-- Python `str.replace('```', '')`: remove every non-overlapping occurrence
of three backticks, scanning left to right. -/
def removeTicks : Text → Text
  | '\x60' :: '\x60' :: '\x60' :: rest => removeTicks rest
  | c :: rest => c :: removeTicks rest
  | [] => []

/-- Whether the text contains three consecutive backticks. -/
def hasTicks : Text → Bool
  | '\x60' :: '\x60' :: '\x60' :: _ => true
  | _ :: rest => hasTicks rest
  | [] => false

/-- All positions at which `pat` occurs in `s` (as a prefix of the suffix
starting there), in increasing order. -/
def subOccs (pat s : Text) : List Nat :=
  (List.range (s.length + 1)).filter (fun i => pat.isPrefixOf (s.drop i))

/-- The fence opener matched by the regular expression of line 102. -/
def openFence : Text := "```json\n".data

/-- The fence closer matched by the regular expression of line 102. -/
def closeFence : Text := "\n```".data

/-- Embedding of `re.search(r'```json\n(.*?)\n```', s, re.DOTALL)`: the
leftmost fence opener, then the closest closer at least 8 characters later;
returns the captured interior.  (If the leftmost opener has no closer after
it then no later opener has one either, so returning `none` agrees with the
backtracking regex engine.) -/
def fencedSearch (txt : Text) : Option Text :=
  match (subOccs openFence txt).head? with
  | some i =>
    match ((subOccs closeFence txt).filter (fun j => decide (i + 8 ≤ j))).head? with
    | some j => some ((txt.drop (i + 8)).take (j - (i + 8)))
    | none => none
  | none => none

/-- First position of a character in the text. -/
def firstIdxOf (c : Char) (s : Text) : Option Nat := (subOccs [c] s).head?

/-- Last position of a character in the text. -/
def lastIdxOf (c : Char) (s : Text) : Option Nat := (subOccs [c] s).getLast?

/-- Embedding of `re.search(r'({.*})', s, re.DOTALL)`: greedy match from the
first opening brace to the last closing brace after it. -/
def braceSearch (txt : Text) : Option Text :=
  match firstIdxOf '\x7b' txt, lastIdxOf '\x7d' txt with
  | some i, some k => if i < k then some ((txt.drop i).take (k - i + 1)) else none
  | _, _ => none

/-- Candidate selection of lines 101-105, parameterised by the fallback used
when no fenced block is found (the source uses the brace scan). -/
def candidateWithFallback (fb : Text → Option Text) (txt : Text) : Option Text :=
  match fencedSearch txt with
  | some c => some c
  | none => fb txt

/-- Candidate selection of lines 101-105: fenced block first, then the
greedy brace scan. -/
def candidateOf (txt : Text) : Option Text := candidateWithFallback braceSearch txt

/-- Structured JSON values as produced by the embedded `json.loads`.
Numbers keep their validated lexeme, strings are lists of code units. -/
inductive Json : Type where
  | null : Json
  | bool (b : Bool) : Json
  | num (lexeme : Text) : Json
  | str (codes : List Nat) : Json
  | arr (elems : List Json) : Json
  | obj (members : List (List Nat × Json)) : Json

/-- Simple escape characters of JSON strings and their code units. -/
def escSimple (c : Char) : Option Nat :=
  if c = '"' then some 34
  else if c = '\\' then some 92
  else if c = '/' then some 47
  else if c = 'b' then some 8
  else if c = 'f' then some 12
  else if c = 'n' then some 10
  else if c = 'r' then some 13
  else if c = 't' then some 9
  else none

/-- Hexadecimal digit value. -/
def hexVal (c : Char) : Option Nat :=
  if '0' ≤ c ∧ c ≤ '9' then some (c.toNat - 48)
  else if 'a' ≤ c ∧ c ≤ 'f' then some (c.toNat - 87)
  else if 'A' ≤ c ∧ c ≤ 'F' then some (c.toNat - 55)
  else none

/-- JSON string body scanner (after the opening quote): returns the decoded
code units and the rest of the input after the closing quote.  Mirrors the
strict CPython scanner: raw control characters are rejected, escapes are the
eight simple ones plus `\u` with exactly four hex digits. -/
def lexString : Text → Option (List Nat × Text)
  | '"' :: rest => some ([], rest)
  | '\\' :: 'u' :: h1 :: h2 :: h3 :: h4 :: r =>
    match hexVal h1, hexVal h2, hexVal h3, hexVal h4 with
    | some a, some b, some c, some d =>
      match lexString r with
      | some (cs, rest) => some ((((a * 16 + b) * 16 + c) * 16 + d) :: cs, rest)
      | none => none
    | _, _, _, _ => none
  | '\\' :: e :: r =>
    match escSimple e with
    | some n =>
      match lexString r with
      | some (cs, rest) => some (n :: cs, rest)
      | none => none
    | none => none
  | c :: r =>
    if c.toNat < 32 then none
    else
      match lexString r with
      | some (cs, rest) => some (c.toNat :: cs, rest)
      | none => none
  | [] => none

/-- Unsigned integer part of a JSON number: `0`, or a nonzero digit followed
by digits (maximal munch, as the scanner's regular expression). -/
def lexUInt : Text → Option (Text × Text)
  | '0' :: r => some (['0'], r)
  | c :: r =>
    if c.isDigit then some (c :: r.takeWhile Char.isDigit, r.dropWhile Char.isDigit)
    else none
  | [] => none

/-- Integer part of a JSON number with optional leading minus. -/
def lexInt : Text → Option (Text × Text)
  | '-' :: r =>
    match lexUInt r with
    | some (l, rest) => some ('-' :: l, rest)
    | none => none
  | s => lexUInt s

/-- Optional fraction part `.digits` (taken only when at least one digit
follows the dot, as in the scanner's regular expression). -/
def lexFracOpt (s : Text) : Text × Text :=
  match s with
  | '.' :: r =>
    if (r.takeWhile Char.isDigit).isEmpty then ([], s)
    else ('.' :: r.takeWhile Char.isDigit, r.dropWhile Char.isDigit)
  | _ => ([], s)

/-- Optional exponent part `[eE][+-]?digits` (taken only when at least one
digit is present). -/
def lexExpOpt (s : Text) : Text × Text :=
  match s with
  | e :: r =>
    if e = 'e' ∨ e = 'E' then
      match r with
      | sgn :: r2 =>
        if sgn = '+' ∨ sgn = '-' then
          if (r2.takeWhile Char.isDigit).isEmpty then ([], s)
          else (e :: sgn :: r2.takeWhile Char.isDigit, r2.dropWhile Char.isDigit)
        else
          if (r.takeWhile Char.isDigit).isEmpty then ([], s)
          else (e :: r.takeWhile Char.isDigit, r.dropWhile Char.isDigit)
      | [] => ([], s)
    else ([], s)
  | [] => ([], s)

/-- JSON number lexer: the scanner's NUMBER_RE as maximal-munch components.
Returns the matched lexeme and the rest. -/
def lexNumber (s : Text) : Option (Text × Text) :=
  match lexInt s with
  | none => none
  | some (ip, r1) =>
    match lexFracOpt r1 with
    | (fp, r2) =>
      match lexExpOpt r2 with
      | (ep, r3) => some (ip ++ fp ++ ep, r3)

mutual

/-- One JSON value at the head of the input (no leading whitespace), mirror
of the CPython scanner dispatch: string, object, array, `null`, `true`,
`false`, number, `NaN`, `Infinity`, `-Infinity`. -/
def parseValue : Nat → Text → Option (Json × Text)
  | 0, _ => none
  | Nat.succ fuel, s =>
    match s with
    | '"' :: r =>
      match lexString r with
      | some (cs, rest) => some (Json.str cs, rest)
      | none => none
    | '\x7b' :: r =>
      match skipWs r with
      | '\x7d' :: rest => some (Json.obj [], rest)
      | r1 => parseMembers fuel [] r1
    | '[' :: r =>
      match skipWs r with
      | ']' :: rest => some (Json.arr [], rest)
      | r1 => parseElems fuel [] r1
    | _ =>
      if ("null".data).isPrefixOf s then some (Json.null, s.drop 4)
      else if ("true".data).isPrefixOf s then some (Json.bool true, s.drop 4)
      else if ("false".data).isPrefixOf s then some (Json.bool false, s.drop 5)
      else
        match lexNumber s with
        | some (lex, rest) => some (Json.num lex, rest)
        | none =>
          if ("NaN".data).isPrefixOf s then some (Json.num ("NaN".data), s.drop 3)
          else if ("Infinity".data).isPrefixOf s then some (Json.num ("Infinity".data), s.drop 8)
          else if ("-Infinity".data).isPrefixOf s then some (Json.num ("-Infinity".data), s.drop 9)
          else none

/-- Array tail: at least one element, elements separated by commas with
surrounding JSON whitespace, closed by a bracket.  Accumulates onto `acc`. -/
def parseElems : Nat → List Json → Text → Option (Json × Text)
  | 0, _, _ => none
  | Nat.succ fuel, acc, s =>
    match parseValue fuel s with
    | none => none
    | some (v, r1) =>
      match skipWs r1 with
      | ',' :: r2 => parseElems fuel (acc ++ [v]) (skipWs r2)
      | ']' :: r2 => some (Json.arr (acc ++ [v]), r2)
      | _ => none

/-- Object member tail: at least one `"key" : value` pair, separated by
commas, closed by a brace.  Accumulates onto `acc`. -/
def parseMembers : Nat → List (List Nat × Json) → Text → Option (Json × Text)
  | 0, _, _ => none
  | Nat.succ fuel, acc, s =>
    match s with
    | '"' :: r =>
      match lexString r with
      | none => none
      | some (key, r1) =>
        match skipWs r1 with
        | ':' :: r2 =>
          match parseValue fuel (skipWs r2) with
          | none => none
          | some (v, r3) =>
            match skipWs r3 with
            | ',' :: r4 => parseMembers fuel (acc ++ [(key, v)]) (skipWs r4)
            | '\x7d' :: r4 => some (Json.obj (acc ++ [(key, v)]), r4)
            | _ => none
        | _ => none
    | _ => none

end

/-- Fuel that always suffices for `parseValue` on input `s`: the recursion
consumes at least one character every two fuel-decrementing calls. -/
def fuelOf (s : Text) : Nat := 2 * s.length + 4

/-- Embedding of `json.loads`: skip leading whitespace, parse one value,
require only whitespace after it.  Error details are modelled coarsely. -/
def jsonDecodeE (s : Text) : Except Text Json :=
  match parseValue (fuelOf s) (skipWs s) with
  | some (v, rest) =>
    if skipWs rest = [] then Except.ok v else Except.error ("Extra data".data)
  | none => Except.error ("Expecting value".data)

/-- Error message of line 115 (decode failure): carries the decode error
detail and the full original response. -/
def malformedMsg (detail raw : Text) : Text :=
  ("Error: Model returned invalid JSON. Details:\n".data) ++ detail ++
  ("\nRaw response:\n".data) ++ raw

/-- Error message of line 117 (no candidate found): carries the full
original response. -/
def notFoundMsg (raw : Text) : Text :=
  ("Error: Could not find JSON in response. Raw response:\n".data) ++ raw

/-- Error message of line 120 (RequestException). -/
def connectMsg (detail : Text) : Text :=
  ("Error connecting to Ollama: ".data) ++ detail ++
  ("\nMake sure Ollama is running and the model is loaded.".data)

/-- Error message of line 122 (catch-all `except Exception`). -/
def unexpectedMsg (detail : Text) : Text :=
  ("Unexpected error: ".data) ++ detail

/-- Lines 108-115: clean the candidate (remove backtick fences, strip
whitespace), decode, and package the result pair. -/
def parseCleaned (c raw : Text) : Option Json × Option Text :=
  match jsonDecodeE (pyStrip (removeTicks c)) with
  | Except.ok v => (some v, none)
  | Except.error d => (none, some (malformedMsg d raw))

/-- The Extractor: lines 101-117 of `generate_job_requirements`, a pure
function of the response text.  Returns the `(requirements, error)` pair. -/
def extractJson (raw : Text) : Option Json × Option Text :=
  match candidateOf raw with
  | some c => parseCleaned c raw
  | none => (none, some (notFoundMsg raw))

/-- Outcome of the single `requests.post` call of one invocation, as seen by
the `try` block of lines 93-122.
* `connectionError`: `requests.post` raised, `raise_for_status` raised on a
  non-2xx status, or `response.json()` raised (a `RequestException` in
  requests ≥ 2.27); `detail` is `str(e)`.
* `envelope`: 2xx with a JSON-object body; `responseText` is its
  "response" field as a string (the empty text when the field is absent).
* `unexpectedError`: any other exception in the `try` block, reachable for
  example when the 2xx body decodes to a non-object so that `.get` raises
  `AttributeError`; `detail` is `str(e)`. -/
inductive UpstreamOutcome : Type where
  | connectionError (detail : Text) : UpstreamOutcome
  | envelope (responseText : Text) : UpstreamOutcome
  | unexpectedError (detail : Text) : UpstreamOutcome

/-- `generate_job_requirements` as a function of the outcome of its single
POST request. -/
def generateJobRequirements : UpstreamOutcome → Option Json × Option Text
  | UpstreamOutcome.connectionError d => (none, some (connectMsg d))
  | UpstreamOutcome.envelope t => extractJson t
  | UpstreamOutcome.unexpectedError d => (none, some (unexpectedMsg d))

/-- One invocation run against the stream of outcomes the upstream endpoint
would return to successive POST requests: the invocation consumes exactly
the first outcome and leaves the rest untouched (no retry). -/
def generateWithRetries (posts : List UpstreamOutcome) :
    Option ((Option Json × Option Text) × List UpstreamOutcome) :=
  match posts with
  | [] => none
  | o :: rest => some (generateJobRequirements o, rest)

/-- The failure taxonomy of spec section 7. -/
inductive FailureClass : Type where
  | connectionFailure : FailureClass
  | payloadNotFound : FailureClass
  | malformedPayload : FailureClass
deriving DecidableEq

/-- Classify an error message of `generate_job_requirements` into the
taxonomy by its fixed leading phrase. -/
def classifyFailure (msg : Text) : Option FailureClass :=
  if ("Error connecting to Ollama: ".data).isPrefixOf msg then
    some FailureClass.connectionFailure
  else if ("Error: Could not find JSON in response.".data).isPrefixOf msg then
    some FailureClass.payloadNotFound
  else if ("Error: Model returned invalid JSON.".data).isPrefixOf msg then
    some FailureClass.malformedPayload
  else none

/-- src/match.py lines 80-87: on a 200 response the handler renders the raw
"response" field in the text area and writes the same raw text to the
output file (and download button).  Returns (rendered, written). -/
def matchPageOutput (responseText : Text) : Text × Text :=
  (responseText, responseText)

/-- src/report.py lines 84-91: on a 200 response the handler strips the raw
"response" field and renders/writes that stripped text unparsed.
Returns (rendered, written). -/
def reportPageOutput (responseText : Text) : Text × Text :=
  (pyStrip responseText, pyStrip responseText)

/-- A fenced JSON block occurs somewhere in the text. -/
def HasFenceStruct (txt : Text) : Prop :=
  ∃ pre mid suf, txt = pre ++ openFence ++ mid ++ closeFence ++ suf

/-- Some `{` occurs before some `}` in the text (the brace-scan regular
expression matches exactly in this case). -/
def HasBraceSpan (txt : Text) : Prop :=
  ∃ p m s, txt = p ++ '\x7b' :: m ++ '\x7d' :: s

/-- All pairs (opener position, closer position at least 8 later); the text
contains a single fenced block exactly when this list is a singleton. -/
def fencePairs (txt : Text) : List (Nat × Nat) :=
  (subOccs openFence txt).flatMap
    (fun i => ((subOccs closeFence txt).filter (fun j => decide (i + 8 ≤ j))).map
      (fun j => (i, j)))

/-- The text contains a single fenced JSON block and `interior` is its
interior: exactly one opener/closer pair exists. -/
def SingleFenced (txt interior : Text) : Prop :=
  ∃ i j, fencePairs txt = [(i, j)] ∧ interior = (txt.drop (i + 8)).take (j - (i + 8))

/-- Boundary check: the text is empty or starts with a character that cannot
extend a number lexeme (used to state that a parse is unaffected by
replacing what follows the consumed part). -/
def goodB : Text → Bool
  | [] => true
  | c :: _ => !(c.isDigit || c == '.' || c == 'e' || c == 'E' || c == '+' || c == '-')

/-- Kinds of parse derivations: a value, an array tail, an object tail. -/
inductive PKind : Type where
  | val : PKind
  | arrTail : PKind
  | objTail : PKind

/-- Relational mirror of the parser: `Der k s out rest` says parsing of kind
`k` starting at `s` produces `out` and leaves `rest`.  Array and object
tails package their outputs as `Json.arr` / `Json.obj`. -/
inductive Der : PKind → Text → Json → Text → Prop where
  | vstr {r cs rest} : lexString r = some (cs, rest) →
      Der PKind.val ('"' :: r) (Json.str cs) rest
  | vnull {rest} : Der PKind.val ('n' :: 'u' :: 'l' :: 'l' :: rest) Json.null rest
  | vtrue {rest} : Der PKind.val ('t' :: 'r' :: 'u' :: 'e' :: rest) (Json.bool true) rest
  | vfalse {rest} :
      Der PKind.val ('f' :: 'a' :: 'l' :: 's' :: 'e' :: rest) (Json.bool false) rest
  | vnum {s lex rest} : lexNumber s = some (lex, rest) →
      Der PKind.val s (Json.num lex) rest
  | vnan {rest} : Der PKind.val ('N' :: 'a' :: 'N' :: rest) (Json.num ("NaN".data)) rest
  | vinf {rest} :
      Der PKind.val ('I' :: 'n' :: 'f' :: 'i' :: 'n' :: 'i' :: 't' :: 'y' :: rest)
        (Json.num ("Infinity".data)) rest
  | vninf {rest} :
      Der PKind.val ('-' :: 'I' :: 'n' :: 'f' :: 'i' :: 'n' :: 'i' :: 't' :: 'y' :: rest)
        (Json.num ("-Infinity".data)) rest
  | vobjE {r rest} : skipWs r = '\x7d' :: rest →
      Der PKind.val ('\x7b' :: r) (Json.obj []) rest
  | vobj {r kvs rest} : Der PKind.objTail (skipWs r) (Json.obj kvs) rest →
      Der PKind.val ('\x7b' :: r) (Json.obj kvs) rest
  | varrE {r rest} : skipWs r = ']' :: rest →
      Der PKind.val ('[' :: r) (Json.arr []) rest
  | varr {r vs rest} : Der PKind.arrTail (skipWs r) (Json.arr vs) rest →
      Der PKind.val ('[' :: r) (Json.arr vs) rest
  | mLast {r k r1 r2 v r3 r4} : lexString r = some (k, r1) → skipWs r1 = ':' :: r2 →
      Der PKind.val (skipWs r2) v r3 → skipWs r3 = '\x7d' :: r4 →
      Der PKind.objTail ('"' :: r) (Json.obj [(k, v)]) r4
  | mCons {r k r1 r2 v r3 r4 kvs rest} : lexString r = some (k, r1) →
      skipWs r1 = ':' :: r2 → Der PKind.val (skipWs r2) v r3 → skipWs r3 = ',' :: r4 →
      Der PKind.objTail (skipWs r4) (Json.obj kvs) rest →
      Der PKind.objTail ('"' :: r) (Json.obj ((k, v) :: kvs)) rest
  | aLast {s v r1 r2} : Der PKind.val s v r1 → skipWs r1 = ']' :: r2 →
      Der PKind.arrTail s (Json.arr [v]) r2
  | aCons {s v r1 r2 vs rest} : Der PKind.val s v r1 → skipWs r1 = ',' :: r2 →
      Der PKind.arrTail (skipWs r2) (Json.arr vs) rest →
      Der PKind.arrTail s (Json.arr (v :: vs)) rest

end ATS

namespace ATS

/-! ### General list helpers -/

theorem dropWhile_append_all {p : Char → Bool} :
    ∀ {w t : Text}, (∀ c ∈ w, p c = true) → List.dropWhile p (w ++ t) = List.dropWhile p t := by
  intro w
  induction w with
  | nil => intro t _; rfl
  | cons a w ih =>
    intro t h
    have ha : p a = true := h a (List.mem_cons_self a w)
    simp only [List.cons_append, List.dropWhile_cons, ha, if_true]
    exact ih (fun c hc => h c (List.mem_cons_of_mem a hc))

theorem dropWhile_cons_false {p : Char → Bool} {a : Char} {t : Text} (h : p a = false) :
    List.dropWhile p (a :: t) = a :: t := by
  simp only [List.dropWhile_cons, h]
  simp

theorem length_dropWhile_le {p : Char → Bool} : ∀ (l : Text), (List.dropWhile p l).length ≤ l.length := by
  intro l
  induction l with
  | nil => simp
  | cons a t ih =>
    simp only [List.dropWhile_cons]
    by_cases hp : p a = true
    · simp only [hp, if_true]
      exact Nat.le_succ_of_le ih
    · simp only [hp]
      simp

theorem head_dropWhile_false {p : Char → Bool} :
    ∀ {l a t}, List.dropWhile p l = a :: t → p a = false := by
  intro l
  induction l with
  | nil => intro a t h; cases h
  | cons b l ih =>
    intro a t h
    simp only [List.dropWhile_cons] at h
    by_cases hp : p b = true
    · rw [if_pos hp] at h
      exact ih h
    · rw [if_neg hp] at h
      cases h
      simpa using hp

theorem all_takeWhile {p : Char → Bool} {l : Text} : ∀ c ∈ l.takeWhile p, p c = true :=
  fun _ hc => List.mem_takeWhile_imp hc

theorem dropWhile_decomp {p : Char → Bool} {l z : Text} (h : List.dropWhile p l = z) :
    l = l.takeWhile p ++ z := by
  rw [← h, List.takeWhile_append_dropWhile]

/-- A successful `skipWs` decomposition survives appending a new tail, as
long as what follows the whitespace run starts with a non-whitespace
character. -/
theorem skipWs_append {w : Text} (hw : ∀ c ∈ w, isJsonWs c = true) {a : Char}
    (ha : isJsonWs a = false) : ∀ {u : Text}, skipWs (w ++ a :: u) = a :: u := by
  intro u
  unfold skipWs
  rw [dropWhile_append_all hw, dropWhile_cons_false ha]

/-! ### Occurrence machinery for the embedded regular-expression searches -/

theorem mem_subOccs {pat s : Text} {i : Nat} :
    i ∈ subOccs pat s ↔ i ≤ s.length ∧ pat <+: s.drop i := by
  unfold subOccs
  rw [List.mem_filter, List.mem_range]
  constructor
  · rintro ⟨h1, h2⟩
    exact ⟨Nat.lt_succ_iff.mp h1, List.isPrefixOf_iff_prefix.mp h2⟩
  · rintro ⟨h1, h2⟩
    exact ⟨Nat.lt_succ_iff.mpr h1, List.isPrefixOf_iff_prefix.mpr h2⟩

theorem subOccs_pairwise {pat s : Text} : (subOccs pat s).Pairwise (· < ·) :=
  List.Pairwise.filter _ (List.pairwise_lt_range _)

theorem head?_of_min {l : List Nat} {a : Nat} (hp : l.Pairwise (· < ·)) (ha : a ∈ l)
    (hmin : ∀ b ∈ l, a ≤ b) : l.head? = some a := by
  cases l with
  | nil => cases ha
  | cons b t =>
    have hba : a = b := by
      rcases List.mem_cons.mp ha with h | h
      · exact h
      · have h1 : b < a := (List.pairwise_cons.mp hp).1 a h
        have h2 : a ≤ b := hmin b (List.mem_cons_self b t)
        omega
    rw [hba]
    rfl

theorem getLast?_of_max {l : List Nat} {a : Nat} (hp : l.Pairwise (· < ·)) (ha : a ∈ l)
    (hmax : ∀ b ∈ l, b ≤ a) : l.getLast? = some a := by
  induction l with
  | nil => cases ha
  | cons b t ih =>
    cases t with
    | nil =>
      rcases List.mem_cons.mp ha with h | h
      · rw [h]; rfl
      · cases h
    | cons c u =>
      rw [List.getLast?_cons_cons]
      have hat : a ∈ c :: u := by
        rcases List.mem_cons.mp ha with h | h
        · exfalso
          have hbc : b < c := (List.pairwise_cons.mp hp).1 c (List.mem_cons_self c u)
          have hca : c ≤ a := hmax c (List.mem_cons_of_mem b (List.mem_cons_self c u))
          omega
        · exact h
      exact ih (List.pairwise_cons.mp hp).2 hat
        (fun d hd => hmax d (List.mem_cons_of_mem b hd))

/-- An occurrence yields a structural decomposition of the text. -/
theorem occ_decomp {pat s : Text} {i : Nat} (hi : i ≤ s.length) (h : pat <+: s.drop i) :
    ∃ pre suf, s = pre ++ pat ++ suf ∧ pre.length = i ∧ suf = s.drop (i + pat.length) := by
  obtain ⟨suf, hsuf⟩ := h
  refine ⟨s.take i, suf, ?_, ?_, ?_⟩
  · rw [List.append_assoc, hsuf]
    exact (List.take_append_drop i s).symm
  · simpa using hi
  · have := congrArg (List.drop pat.length) hsuf
    rw [List.drop_left, List.drop_drop] at this
    rw [← this]

/-- A structural decomposition yields an occurrence. -/
theorem decomp_occ {pat pre suf : Text} :
    pre.length ≤ (pre ++ pat ++ suf).length ∧ pat <+: (pre ++ pat ++ suf).drop pre.length := by
  constructor
  · simp
  · rw [List.append_assoc, List.drop_left]
    exact ⟨suf, rfl⟩

end ATS

namespace ATS

/-! ### Characterisation of the embedded regular-expression searches -/

theorem head?_min_mem {l : List Nat} {a : Nat} (hp : l.Pairwise (· < ·))
    (h : l.head? = some a) : a ∈ l ∧ ∀ b ∈ l, a ≤ b := by
  cases l with
  | nil => cases h
  | cons b t =>
    have hab : b = a := by simpa using h
    subst hab
    refine ⟨List.mem_cons_self b t, ?_⟩
    intro d hd
    rcases List.mem_cons.mp hd with h | h
    · omega
    · exact Nat.le_of_lt ((List.pairwise_cons.mp hp).1 d h)

theorem getLast?_max_mem {l : List Nat} {a : Nat} (hp : l.Pairwise (· < ·))
    (h : l.getLast? = some a) : a ∈ l ∧ ∀ b ∈ l, b ≤ a := by
  induction l with
  | nil => cases h
  | cons b t ih =>
    cases t with
    | nil =>
      have hab : b = a := by simpa using h
      subst hab
      refine ⟨List.mem_cons_self b [], ?_⟩
      intro d hd
      rcases List.mem_cons.mp hd with h | h
      · omega
      · cases h
    | cons c u =>
      rw [List.getLast?_cons_cons] at h
      obtain ⟨hmem, hmax⟩ := ih (List.pairwise_cons.mp hp).2 h
      refine ⟨List.mem_cons_of_mem b hmem, ?_⟩
      intro d hd
      rcases List.mem_cons.mp hd with h | h
      · subst h
        exact Nat.le_of_lt ((List.pairwise_cons.mp hp).1 a hmem)
      · exact hmax d h

theorem openFence_length : openFence.length = 8 := rfl

theorem closeFence_length : closeFence.length = 4 := rfl

/-- Full characterisation of a successful fenced search: the text decomposes
around the found interior, the opener position is minimal, and the closer
position is minimal among closers at least 8 past the opener. -/
theorem fencedSearch_spec {txt interior : Text} (h : fencedSearch txt = some interior) :
    ∃ i j pre suf, txt = pre ++ openFence ++ interior ++ closeFence ++ suf ∧
      pre.length = i ∧ j = i + 8 + interior.length ∧
      (∀ p ∈ subOccs openFence txt, i ≤ p) ∧
      (∀ q ∈ subOccs closeFence txt, i + 8 ≤ q → j ≤ q) := by
  unfold fencedSearch at h
  split at h
  case h_2 => cases h
  next i hopen =>
  split at h
  case h_2 => cases h
  next j hclose =>
  have hint : interior = (txt.drop (i + 8)).take (j - (i + 8)) := by
    cases h
    rfl
  obtain ⟨hiMem, hiMin⟩ := head?_min_mem subOccs_pairwise hopen
  obtain ⟨hjMemF, hjMin⟩ := head?_min_mem (List.Pairwise.filter _ subOccs_pairwise) hclose
  obtain ⟨hjMem, hjGe⟩ := List.mem_filter.mp hjMemF
  have hjGe' : i + 8 ≤ j := of_decide_eq_true hjGe
  obtain ⟨hiLe, hiPre⟩ := mem_subOccs.mp hiMem
  obtain ⟨hjLe, hjPre⟩ := mem_subOccs.mp hjMem
  obtain ⟨pre, suf0, hdec, hpre, hsuf0⟩ := occ_decomp hiLe hiPre
  obtain ⟨zc, hzc⟩ := hjPre
  have hdropj : txt.drop j = closeFence ++ zc := hzc.symm
  have hdrop8 : txt.drop (i + 8) = interior ++ (closeFence ++ zc) := by
    have h1 : (txt.drop (i + 8)).take (j - (i + 8)) ++ (txt.drop (i + 8)).drop (j - (i + 8)) =
        txt.drop (i + 8) := List.take_append_drop _ _
    have h2 : (txt.drop (i + 8)).drop (j - (i + 8)) = txt.drop j := by
      rw [List.drop_drop]
      congr 1
      omega
    rw [← h1, h2, hdropj, ← hint]
  have hlen : interior.length = j - (i + 8) := by
    rw [hint, List.length_take, List.length_drop]
    omega
  refine ⟨i, j, pre, zc, ?_, hpre, by omega, hiMin, ?_⟩
  · rw [hdec]
    have hsufEq : suf0 = interior ++ (closeFence ++ zc) := by
      rw [hsuf0]
      have hoe : i + openFence.length = i + 8 := by rw [openFence_length]
      rw [hoe, hdrop8]
    rw [hsufEq]
    simp only [List.append_assoc]
  · intro q hq hq8
    exact hjMin q (List.mem_filter.mpr ⟨hq, decide_eq_true hq8⟩)

/-- If the text contains a fenced block then the fenced search succeeds. -/
theorem fencedSearch_isSome_of_hasFence {txt : Text} (h : HasFenceStruct txt) :
    ∃ c, fencedSearch txt = some c := by
  obtain ⟨pre, mid, suf, hdec⟩ := h
  have hoMem : pre.length ∈ subOccs openFence txt := by
    rw [mem_subOccs, hdec]
    have := @decomp_occ openFence pre (mid ++ closeFence ++ suf)
    simpa [List.append_assoc] using this
  have hcMem : (pre.length + 8 + mid.length) ∈ subOccs closeFence txt := by
    rw [mem_subOccs, hdec]
    have := @decomp_occ closeFence (pre ++ openFence ++ mid) suf
    have hl : (pre ++ openFence ++ mid).length = pre.length + 8 + mid.length := by
      simp [openFence_length]
      omega
    rw [hl] at this
    simpa [List.append_assoc] using this
  rcases hopen : (subOccs openFence txt).head? with _ | i
  · exfalso
    cases hso : subOccs openFence txt with
    | nil => rw [hso] at hoMem; cases hoMem
    | cons a t => rw [hso] at hopen; cases hopen
  obtain ⟨hiMem, hiMin⟩ := head?_min_mem subOccs_pairwise hopen
  have hile : i ≤ pre.length := hiMin _ hoMem
  have hcF : (pre.length + 8 + mid.length) ∈
      (subOccs closeFence txt).filter (fun j => decide (i + 8 ≤ j)) :=
    List.mem_filter.mpr ⟨hcMem, decide_eq_true (by omega)⟩
  rcases hclose : ((subOccs closeFence txt).filter (fun j => decide (i + 8 ≤ j))).head? with _ | j
  · exfalso
    cases hsc : (subOccs closeFence txt).filter (fun j => decide (i + 8 ≤ j)) with
    | nil => rw [hsc] at hcF; cases hcF
    | cons a t => rw [hsc] at hclose; cases hclose
  refine ⟨(txt.drop (i + 8)).take (j - (i + 8)), ?_⟩
  unfold fencedSearch
  simp only [hopen, hclose]

/-- If the text contains no fenced block then the fenced search fails. -/
theorem fencedSearch_none_of_not {txt : Text} (h : ¬ HasFenceStruct txt) :
    fencedSearch txt = none := by
  rcases hf : fencedSearch txt with _ | c
  · rfl
  · exfalso
    obtain ⟨i, j, pre, suf, hdec, -, -, -, -⟩ := fencedSearch_spec hf
    exact h ⟨pre, c, suf, hdec⟩

theorem mem_fencePairs {txt : Text} {i j : Nat} :
    (i, j) ∈ fencePairs txt ↔
      i ∈ subOccs openFence txt ∧ j ∈ subOccs closeFence txt ∧ i + 8 ≤ j := by
  unfold fencePairs
  rw [List.mem_flatMap]
  constructor
  · rintro ⟨a, ha, hmem⟩
    rw [List.mem_map] at hmem
    obtain ⟨b, hb, heq⟩ := hmem
    obtain ⟨hb1, hb2⟩ := List.mem_filter.mp hb
    have h1 : a = i := congrArg Prod.fst heq
    have h2 : b = j := congrArg Prod.snd heq
    subst h1; subst h2
    exact ⟨ha, hb1, of_decide_eq_true hb2⟩
  · rintro ⟨h1, h2, h3⟩
    exact ⟨i, h1, List.mem_map.mpr ⟨j, List.mem_filter.mpr ⟨h2, decide_eq_true h3⟩, rfl⟩⟩

/-- A single fenced block is found by the fenced search, with its interior. -/
theorem singleFenced_search {txt interior : Text} (h : SingleFenced txt interior) :
    fencedSearch txt = some interior := by
  obtain ⟨i, j, hpair, hint⟩ := h
  have hmem : (i, j) ∈ fencePairs txt := by rw [hpair]; exact List.mem_cons_self _ _
  obtain ⟨hiMem, hjMem, hij⟩ := mem_fencePairs.mp hmem
  have hopen : (subOccs openFence txt).head? = some i := by
    apply head?_of_min subOccs_pairwise hiMem
    intro p hp
    by_contra hcon
    have hpi : p < i := by omega
    have hmem2 : (p, j) ∈ fencePairs txt := mem_fencePairs.mpr ⟨hp, hjMem, by omega⟩
    rw [hpair] at hmem2
    have := List.mem_singleton.mp hmem2
    have hpeq : p = i := congrArg Prod.fst this
    omega
  have hclose : ((subOccs closeFence txt).filter (fun q => decide (i + 8 ≤ q))).head? = some j := by
    apply head?_of_min (List.Pairwise.filter _ subOccs_pairwise)
      (List.mem_filter.mpr ⟨hjMem, decide_eq_true hij⟩)
    intro q hq
    obtain ⟨hq1, hq2⟩ := List.mem_filter.mp hq
    have hmem2 : (i, q) ∈ fencePairs txt := mem_fencePairs.mpr ⟨hiMem, hq1, of_decide_eq_true hq2⟩
    rw [hpair] at hmem2
    have := List.mem_singleton.mp hmem2
    have hqeq : q = j := congrArg Prod.snd this
    omega
  unfold fencedSearch
  simp only [hopen, hclose]
  rw [hint]

end ATS

namespace ATS

/-! ### Brace-scan characterisation -/

theorem mem_subOccs_single {c : Char} {s : Text} {p : Nat} :
    p ∈ subOccs [c] s ↔ p ≤ s.length ∧ ∃ t, s.drop p = c :: t := by
  rw [mem_subOccs]
  constructor
  · rintro ⟨h1, t, ht⟩
    exact ⟨h1, t, ht.symm⟩
  · rintro ⟨h1, t, ht⟩
    exact ⟨h1, t, ht.symm⟩

/-- A successful brace scan exhibits a brace span in the text. -/
theorem braceSearch_some_span {txt cand : Text} (h : braceSearch txt = some cand) :
    HasBraceSpan txt := by
  unfold braceSearch at h
  split at h
  case h_2 => cases h
  next i k hfi hla =>
  split at h
  case isFalse => cases h
  next hik =>
  obtain ⟨hiMem, -⟩ := head?_min_mem subOccs_pairwise hfi
  obtain ⟨hkMem, -⟩ := getLast?_max_mem subOccs_pairwise hla
  obtain ⟨hiLe, ti, hti⟩ := mem_subOccs_single.mp hiMem
  obtain ⟨hkLe, tk, htk⟩ := mem_subOccs_single.mp hkMem
  have hdec : txt = txt.take i ++ '\x7b' :: ti := by
    rw [← hti]
    exact (List.take_append_drop i txt).symm
  have hti' : ti = txt.drop (i + 1) := by
    have h2 := congrArg (List.drop 1) hti
    rw [List.drop_drop] at h2
    simpa using h2.symm
  have hdropk : ti.drop (k - i - 1) = '\x7d' :: tk := by
    rw [hti', List.drop_drop, ← htk]
    congr 1
    omega
  have hts : ti = ti.take (k - i - 1) ++ '\x7d' :: tk := by
    rw [← hdropk]
    exact (List.take_append_drop _ ti).symm
  rw [hts] at hdec
  exact ⟨txt.take i, ti.take (k - i - 1), tk, hdec.trans (by simp)⟩

/-- The brace scan on a text whose first `{` opens the span and whose last
`}` closes it returns exactly that span. -/
theorem braceSearch_decomp {pre mid suf : Text} (hpre : '\x7b' ∉ pre) (hsuf : '\x7d' ∉ suf) :
    braceSearch (pre ++ '\x7b' :: mid ++ '\x7d' :: suf) =
      some ('\x7b' :: mid ++ ['\x7d']) := by
  have hassoc : (pre ++ '\x7b' :: mid) ++ '\x7d' :: suf =
      pre ++ ('\x7b' :: (mid ++ '\x7d' :: suf)) := by
    simp
  have hfi : firstIdxOf '\x7b' (pre ++ '\x7b' :: mid ++ '\x7d' :: suf) = some pre.length := by
    unfold firstIdxOf
    apply head?_of_min subOccs_pairwise
    · rw [mem_subOccs_single]
      refine ⟨by simp only [List.length_append, List.length_cons]; omega,
        mid ++ '\x7d' :: suf, ?_⟩
      rw [hassoc]
      exact List.drop_left pre ('\x7b' :: (mid ++ '\x7d' :: suf))
    · intro p hp
      by_contra hcon
      have hplt : p < pre.length := by omega
      obtain ⟨-, t, ht⟩ := mem_subOccs_single.mp hp
      rw [hassoc] at ht
      have hsplit : (pre ++ ('\x7b' :: (mid ++ '\x7d' :: suf))).drop p =
          pre.drop p ++ ('\x7b' :: (mid ++ '\x7d' :: suf)) :=
        List.drop_append_of_le_length (by omega)
      rw [hsplit] at ht
      cases hd : pre.drop p with
      | nil =>
        have hlen2 := congrArg List.length hd
        simp at hlen2
        omega
      | cons d u =>
        rw [hd] at ht
        have hdt : d = '\x7b' := by
          have h3 := congrArg List.head? ht
          simpa using h3
        have hmem : d ∈ pre := List.drop_subset p pre (by rw [hd]; exact List.mem_cons_self d u)
        rw [hdt] at hmem
        exact hpre hmem
  have hl2 : (pre ++ '\x7b' :: mid).length = pre.length + 1 + mid.length := by
    simp only [List.length_append, List.length_cons]
    omega
  have hla : lastIdxOf '\x7d' (pre ++ '\x7b' :: mid ++ '\x7d' :: suf) =
      some (pre.length + 1 + mid.length) := by
    unfold lastIdxOf
    apply getLast?_of_max subOccs_pairwise
    · rw [mem_subOccs_single]
      refine ⟨by simp only [List.length_append, List.length_cons]; omega, suf, ?_⟩
      rw [← hl2]
      exact List.drop_left (pre ++ '\x7b' :: mid) ('\x7d' :: suf)
    · intro q hq
      by_contra hcon
      obtain ⟨-, t, ht⟩ := mem_subOccs_single.mp hq
      have hre3 : (pre ++ '\x7b' :: mid) ++ '\x7d' :: suf =
          ((pre ++ '\x7b' :: mid) ++ ['\x7d']) ++ suf := by
        simp
      have hl3 : ((pre ++ '\x7b' :: mid) ++ ['\x7d']).length =
          pre.length + 1 + mid.length + 1 := by
        simp only [List.length_append, List.length_cons, List.length_nil]
        omega
      have hdropsuf : (pre ++ '\x7b' :: mid ++ '\x7d' :: suf).drop
          (pre.length + 1 + mid.length + 1) = suf := by
        rw [hre3, ← hl3]
        exact List.drop_left ((pre ++ '\x7b' :: mid) ++ ['\x7d']) suf
      have hstep : (pre ++ '\x7b' :: mid ++ '\x7d' :: suf).drop q =
          ((pre ++ '\x7b' :: mid ++ '\x7d' :: suf).drop
            (pre.length + 1 + mid.length + 1)).drop
            (q - (pre.length + 1 + mid.length + 1)) := by
        rw [List.drop_drop]
        congr 1
        omega
      rw [hstep, hdropsuf] at ht
      have hmem : '\x7d' ∈ suf := by
        have hmem2 : '\x7d' ∈ suf.drop (q - (pre.length + 1 + mid.length + 1)) := by
          rw [ht]
          exact List.mem_cons_self _ _
        exact List.drop_subset _ suf hmem2
      exact hsuf hmem
  unfold braceSearch
  simp only [hfi, hla]
  rw [if_pos (by omega)]
  have hdrop : (pre ++ '\x7b' :: mid ++ '\x7d' :: suf).drop pre.length =
      '\x7b' :: (mid ++ '\x7d' :: suf) := by
    rw [hassoc]
    exact List.drop_left pre ('\x7b' :: (mid ++ '\x7d' :: suf))
  rw [hdrop]
  have harr : pre.length + 1 + mid.length - pre.length + 1 = mid.length + 2 := by omega
  rw [harr]
  have hre2 : '\x7b' :: (mid ++ '\x7d' :: suf) = ('\x7b' :: mid ++ ['\x7d']) ++ suf := by
    simp
  have hl4 : ('\x7b' :: mid ++ ['\x7d']).length = mid.length + 2 := by
    simp only [List.length_append, List.length_cons, List.length_nil]
  rw [hre2, ← hl4, List.take_left]

/-- A fenced block forces a backtick to occur in the text. -/
theorem hasFence_mem {txt : Text} (h : HasFenceStruct txt) : '\x60' ∈ txt := by
  obtain ⟨pre, mid, suf, hdec⟩ := h
  rw [hdec]
  have hof : '\x60' ∈ openFence := by decide
  simp [hof]

/-- A brace span forces an opening brace to occur in the text. -/
theorem hasBrace_mem {txt : Text} (h : HasBraceSpan txt) : '\x7b' ∈ txt := by
  obtain ⟨p, m, s, hdec⟩ := h
  rw [hdec]
  simp

/-! ### Cleanup-step lemmas -/

theorem removeTicks_props (s : Text) :
    hasTicks (removeTicks s) = false ∧
    (∀ t, removeTicks s = '\x60' :: '\x60' :: t → ∃ u, s = '\x60' :: '\x60' :: u) ∧
    (∀ t, removeTicks s = '\x60' :: t → ∃ u, s = '\x60' :: u) := by
  induction s using removeTicks.induct with
  | case1 rest ih =>
    rw [removeTicks.eq_1]
    exact ⟨ih.1, fun t _ => ⟨'\x60' :: rest, rfl⟩, fun t _ => ⟨'\x60' :: '\x60' :: rest, rfl⟩⟩
  | case2 c rest h ih =>
    rw [removeTicks.eq_2 c rest h]
    refine ⟨?_, ?_, ?_⟩
    · by_cases hc : c = '\x60'
      · subst hc
        by_cases htr : ∃ u, removeTicks rest = '\x60' :: '\x60' :: u
        · exfalso
          obtain ⟨u, hu⟩ := htr
          obtain ⟨u', hu'⟩ := ih.2.1 u hu
          exact h u' rfl hu'
        · have hguard : ∀ r1, ('\x60' : Char) = '\x60' →
              removeTicks rest = '\x60' :: '\x60' :: r1 → False :=
            fun r1 _ hx => htr ⟨r1, hx⟩
          rw [hasTicks.eq_2 _ _ hguard]
          exact ih.1
      · have hguard : ∀ r1, c = '\x60' → removeTicks rest = '\x60' :: '\x60' :: r1 → False :=
          fun r1 hcc _ => hc hcc
        rw [hasTicks.eq_2 c _ hguard]
        exact ih.1
    · intro t ht
      have hc : c = '\x60' := by
        have h3 := congrArg List.head? ht
        simpa using h3
      have hrt : removeTicks rest = '\x60' :: t := by
        have h3 := congrArg List.tail ht
        simpa using h3
      obtain ⟨u, hu⟩ := ih.2.2 t hrt
      exact ⟨u, by rw [hc, hu]⟩
    · intro t ht
      have hc : c = '\x60' := by
        have h3 := congrArg List.head? ht
        simpa using h3
      exact ⟨rest, by rw [hc]⟩
  | case3 =>
    refine ⟨rfl, ?_, ?_⟩ <;> intro t ht <;> cases ht

/-- The cleanup removes every occurrence of the triple backtick. -/
theorem removeTicks_no_ticks (s : Text) : hasTicks (removeTicks s) = false :=
  (removeTicks_props s).1

/-- The cleanup is the identity when no triple backtick occurs. -/
theorem removeTicks_eq_self : ∀ {s : Text}, hasTicks s = false → removeTicks s = s := by
  intro s
  induction s using removeTicks.induct with
  | case1 rest ih =>
    intro hh
    rw [hasTicks.eq_1] at hh
    cases hh
  | case2 c rest h ih =>
    intro hh
    rw [hasTicks.eq_2 c rest h] at hh
    rw [removeTicks.eq_2 c rest h, ih hh]
  | case3 =>
    intro _
    rfl

/-! ### Strip-step lemmas -/

theorem pyStrip_mid {w0 u w1 : Text} (hw0 : ∀ c ∈ w0, isPyWs c = true)
    (hw1 : ∀ c ∈ w1, isPyWs c = true) (hne : u ≠ [])
    (hhead : ∀ c, u.head? = some c → isPyWs c = false)
    (hlast : ∀ c, u.getLast? = some c → isPyWs c = false) :
    pyStrip (w0 ++ u ++ w1) = u := by
  unfold pyStrip
  have h1 : List.dropWhile isPyWs (w0 ++ u ++ w1) = u ++ w1 := by
    rw [List.append_assoc, dropWhile_append_all hw0]
    cases u with
    | nil => exact absurd rfl hne
    | cons a m =>
      have ha : isPyWs a = false := hhead a rfl
      rw [List.cons_append, dropWhile_cons_false ha]
  rw [h1, List.reverse_append]
  have hw1r : ∀ c ∈ w1.reverse, isPyWs c = true := fun c hc => hw1 c (List.mem_reverse.mp hc)
  rw [dropWhile_append_all hw1r]
  cases hur : u.reverse with
  | nil =>
    exact absurd (List.reverse_eq_nil_iff.mp hur) hne
  | cons b v =>
    have hb : u.getLast? = some b := by
      rw [← List.head?_reverse, hur]
      rfl
    rw [dropWhile_cons_false (hlast b hb), ← hur, List.reverse_reverse]

theorem pyStrip_eq_self {u : Text} (hne : u ≠ [])
    (hhead : ∀ c, u.head? = some c → isPyWs c = false)
    (hlast : ∀ c, u.getLast? = some c → isPyWs c = false) :
    pyStrip u = u := by
  have h := @pyStrip_mid [] u [] (by intro c hc; cases hc) (by intro c hc; cases hc)
    hne hhead hlast
  simpa using h

end ATS


namespace ATS

/-! ### String-lexer specification -/

theorem escSimple_ne_u {e : Char} {n : Nat} (h : escSimple e = some n) : e ≠ 'u' := by
  intro he
  subst he
  simp [escSimple] at h

/-- Decomposition and frame property of the string lexer: a successful scan
consumed everything up to a closing quote, and the scan is unaffected by
what follows that quote. -/
theorem lexString_spec (r : Text) : ∀ cs rest, lexString r = some (cs, rest) →
    ∃ D, r = D ++ '"' :: rest ∧ ∀ z, lexString (D ++ '"' :: z) = some (cs, z) := by
  induction r using lexString.induct with
  | case1 rest0 =>
    intro cs rest h
    rw [lexString.eq_1] at h
    cases h
    refine ⟨[], rfl, ?_⟩
    intro z
    exact lexString.eq_1 z
  | case2 h1 h2 h3 h4 r a b c d hh4 hh3 hh2 hh1 cs' rest' hrec ih =>
    intro cs rest h
    rw [lexString.eq_2, hh1, hh2, hh3, hh4, hrec] at h
    cases h
    obtain ⟨D', hD1, hD2⟩ := ih cs' rest' hrec
    refine ⟨'\\' :: 'u' :: h1 :: h2 :: h3 :: h4 :: D', ?_, ?_⟩
    · rw [hD1]
      rfl
    · intro z
      simp only [List.cons_append]
      rw [lexString.eq_2, hh1, hh2, hh3, hh4, hD2 z]
  | case3 h1 h2 h3 h4 r a b c d hh4 hh3 hh2 hh1 hrec ih =>
    intro cs rest h
    rw [lexString.eq_2, hh1, hh2, hh3, hh4, hrec] at h
    cases h
  | case4 h1 h2 h3 h4 r hfail =>
    intro cs rest h
    rw [lexString.eq_2] at h
    rcases hv1 : hexVal h1 with _ | a
    · rw [hv1] at h
      cases h
    rcases hv2 : hexVal h2 with _ | b
    · rw [hv1, hv2] at h
      cases h
    rcases hv3 : hexVal h3 with _ | c
    · rw [hv1, hv2, hv3] at h
      cases h
    rcases hv4 : hexVal h4 with _ | d
    · rw [hv1, hv2, hv3, hv4] at h
      cases h
    exact (hfail a b c d hv1 hv2 hv3 hv4).elim
  | case5 e r hguard n hesc cs' rest' hrec ih =>
    intro cs rest h
    rw [lexString.eq_3 e r hguard, hesc, hrec] at h
    cases h
    obtain ⟨D', hD1, hD2⟩ := ih cs' rest' hrec
    have hne : e ≠ 'u' := escSimple_ne_u hesc
    refine ⟨'\\' :: e :: D', ?_, ?_⟩
    · rw [hD1]
      rfl
    · intro z
      have hguard2 : ∀ (g1 g2 g3 g4 : Char) (r1 : List Char), e = 'u' →
          D' ++ '"' :: z = g1 :: g2 :: g3 :: g4 :: r1 → False :=
        fun _ _ _ _ _ heu _ => hne heu
      simp only [List.cons_append]
      rw [lexString.eq_3 e (D' ++ '"' :: z) hguard2, hesc, hD2 z]
  | case6 e r hguard n hesc hrec ih =>
    intro cs rest h
    rw [lexString.eq_3 e r hguard, hesc, hrec] at h
    cases h
  | case7 e r hguard hesc =>
    intro cs rest h
    rw [lexString.eq_3 e r hguard, hesc] at h
    cases h
  | case8 c r hq hu he hlt =>
    intro cs rest h
    rw [lexString.eq_4 c r hq hu he, if_pos hlt] at h
    cases h
  | case9 c r hq hu he hlt cs' rest' hrec ih =>
    intro cs rest h
    rw [lexString.eq_4 c r hq hu he, if_neg hlt, hrec] at h
    cases h
    obtain ⟨D', hD1, hD2⟩ := ih cs' rest' hrec
    have hcb : c ≠ '\\' := by
      intro hc
      cases D' with
      | nil =>
        rw [hD1] at he
        exact he '"' rest' hc rfl
      | cons d D'' =>
        rw [hD1] at he
        exact he d (D'' ++ '"' :: rest') hc rfl
    refine ⟨c :: D', ?_, ?_⟩
    · rw [hD1]
      rfl
    · intro z
      have hu2 : ∀ (g1 g2 g3 g4 : Char) (r1 : List Char), c = '\\' →
          D' ++ '"' :: z = 'u' :: g1 :: g2 :: g3 :: g4 :: r1 → False :=
        fun _ _ _ _ _ hc _ => hcb hc
      have he2 : ∀ (e1 : Char) (r1 : List Char), c = '\\' →
          D' ++ '"' :: z = e1 :: r1 → False :=
        fun _ _ hc _ => hcb hc
      simp only [List.cons_append]
      rw [lexString.eq_4 c (D' ++ '"' :: z) hq hu2 he2, if_neg hlt, hD2 z]
  | case10 c r hq hu he hlt hrec ih =>
    intro cs rest h
    rw [lexString.eq_4 c r hq hu he, if_neg hlt, hrec] at h
    cases h
  | case11 =>
    intro cs rest h
    rw [lexString.eq_5] at h
    cases h

end ATS

namespace ATS

/-! ### Number-lexer specification -/

theorem takeWhile_append_all {p : Char → Bool} :
    ∀ {w t : Text}, (∀ c ∈ w, p c = true) →
      List.takeWhile p (w ++ t) = w ++ List.takeWhile p t := by
  intro w
  induction w with
  | nil => intro t _; rfl
  | cons a w ih =>
    intro t h
    have ha : p a = true := h a (List.mem_cons_self a w)
    simp only [List.cons_append, List.takeWhile_cons, ha, if_true]
    rw [ih (fun c hc => h c (List.mem_cons_of_mem a hc))]

theorem takeWhile_nil_of_head {p : Char → Bool} {t : Text}
    (h : ∀ c, t.head? = some c → p c = false) : List.takeWhile p t = [] := by
  cases t with
  | nil => rfl
  | cons c u =>
    have hc : p c = false := h c rfl
    simp only [List.takeWhile_cons, hc]
    simp

theorem dropWhile_self_of_head {p : Char → Bool} {t : Text}
    (h : ∀ c, t.head? = some c → p c = false) : List.dropWhile p t = t := by
  cases t with
  | nil => rfl
  | cons c u =>
    exact dropWhile_cons_false (h c rfl)

/-- Splитting a digit run followed by a non-digit boundary. -/
theorem digits_split {ds z : Text} (hds : ∀ c ∈ ds, c.isDigit = true)
    (hz : ∀ c, z.head? = some c → c.isDigit = false) :
    List.takeWhile Char.isDigit (ds ++ z) = ds ∧
      List.dropWhile Char.isDigit (ds ++ z) = z := by
  constructor
  · rw [takeWhile_append_all hds, takeWhile_nil_of_head hz, List.append_nil]
  · rw [dropWhile_append_all hds, dropWhile_self_of_head hz]

theorem goodB_head {z : Text} (h : goodB z = true) : ∀ c, z.head? = some c →
    c.isDigit = false ∧ c ≠ '.' ∧ c ≠ 'e' ∧ c ≠ 'E' ∧ c ≠ '+' ∧ c ≠ '-' := by
  intro c hc
  cases z with
  | nil => cases hc
  | cons d t =>
    have hdc : d = c := by simpa using hc
    subst hdc
    simp only [goodB, Bool.not_eq_eq_eq_not, Bool.not_true, Bool.or_eq_false_iff] at h
    obtain ⟨⟨⟨⟨⟨h1, h2⟩, h3⟩, h4⟩, h5⟩, h6⟩ := h
    refine ⟨h1, ?_, ?_, ?_, ?_, ?_⟩ <;> intro he <;> subst he <;> simp_all

theorem goodB_head_digit {z : Text} (h : goodB z = true) :
    ∀ c, z.head? = some c → c.isDigit = false :=
  fun c hc => (goodB_head h c hc).1

theorem getLast?_all {l : Text} {p : Char → Bool} (hne : l ≠ []) (hall : ∀ c ∈ l, p c = true) :
    ∃ c, l.getLast? = some c ∧ p c = true := by
  induction l with
  | nil => exact absurd rfl hne
  | cons a t ih =>
    cases t with
    | nil => exact ⟨a, rfl, hall a (List.mem_cons_self a [])⟩
    | cons b u =>
      rw [List.getLast?_cons_cons]
      exact ih (by simp) (fun c hc => hall c (List.mem_cons_of_mem a hc))

theorem getLast?_cons_of_ne_nil {a : Char} {t : Text} (hne : t ≠ []) :
    (a :: t).getLast? = t.getLast? := by
  cases t with
  | nil => exact absurd rfl hne
  | cons b u => exact List.getLast?_cons_cons

theorem lexUInt_spec {s l r : Text} (h : lexUInt s = some (l, r)) :
    s = l ++ r ∧ l ≠ [] ∧ (∀ c ∈ l, c.isDigit = true) ∧
      ∀ z, (∀ c, z.head? = some c → c.isDigit = false) → lexUInt (l ++ z) = some (l, z) := by
  cases s with
  | nil =>
    rw [lexUInt.eq_3] at h
    cases h
  | cons c r0 =>
    by_cases hc : c = '0'
    · subst hc
      rw [lexUInt.eq_1] at h
      cases h
      refine ⟨rfl, by simp, ?_, ?_⟩
      · intro d hd
        have hdd : d = '0' := by simpa using hd
        rw [hdd]
        decide
      · intro z _
        exact lexUInt.eq_1 z
    · rw [lexUInt.eq_2 c r0 (fun hcc => hc hcc)] at h
      by_cases hd : c.isDigit = true
      · rw [if_pos hd] at h
        cases h
        refine ⟨?_, by simp, ?_, ?_⟩
        · rw [List.cons_append, List.takeWhile_append_dropWhile]
        · intro d hdm
          rcases List.mem_cons.mp hdm with h1 | h1
          · rw [h1]; exact hd
          · exact List.mem_takeWhile_imp h1
        · intro z hz
          have hsplit := @digits_split (List.takeWhile Char.isDigit r0) z
            (fun x hx => List.mem_takeWhile_imp hx) hz
          rw [List.cons_append, lexUInt.eq_2 c _ (fun hcc => hc hcc), if_pos hd,
            hsplit.1, hsplit.2]
      · rw [if_neg hd] at h
        cases h

theorem lexInt_spec {s l r : Text} (h : lexInt s = some (l, r)) :
    s = l ++ r ∧
      (∃ c t, l = c :: t ∧ (c = '-' ∨ c.isDigit = true)) ∧
      (∃ c, l.getLast? = some c ∧ c.isDigit = true) ∧
      ∀ z, (∀ c, z.head? = some c → c.isDigit = false) → lexInt (l ++ z) = some (l, z) := by
  cases s with
  | nil =>
    rw [lexInt.eq_2 [] (fun r hr => by cases hr), lexUInt.eq_3] at h
    cases h
  | cons c r0 =>
    by_cases hc : c = '-'
    · subst hc
      rw [lexInt.eq_1] at h
      rcases hu : lexUInt r0 with _ | ⟨l0, r1⟩
      · rw [hu] at h
        cases h
      · rw [hu] at h
        cases h
        obtain ⟨hu1, hu2, hu3, hu4⟩ := lexUInt_spec hu
        refine ⟨by rw [hu1]; rfl, ⟨'-', l0, rfl, Or.inl rfl⟩, ?_, ?_⟩
        · obtain ⟨d, hd1, hd2⟩ := getLast?_all hu2 hu3
          refine ⟨d, ?_, hd2⟩
          rw [getLast?_cons_of_ne_nil hu2]
          exact hd1
        · intro z hz
          rw [List.cons_append, lexInt.eq_1, hu4 z hz]
    · have hguard : ∀ r1, c :: r0 = '-' :: r1 → False := by
        intro r1 hr
        have hcm : c = '-' := by
          have h3 := congrArg List.head? hr
          simpa using h3
        exact hc hcm
      rw [lexInt.eq_2 _ hguard] at h
      obtain ⟨hu1, hu2, hu3, hu4⟩ := lexUInt_spec h
      obtain ⟨d0, t0, ht0⟩ := List.exists_cons_of_ne_nil hu2
      refine ⟨hu1, ⟨d0, t0, ht0, Or.inr (hu3 d0 (by rw [ht0]; exact List.mem_cons_self _ _))⟩,
        getLast?_all hu2 hu3, ?_⟩
      intro z hz
      have hlg : ∀ r1, l ++ z = '-' :: r1 → False := by
        intro r1 hr
        rw [ht0] at hr
        have hd0 : d0 = '-' := by
          have h3 := congrArg List.head? hr
          simpa using h3
        have hdig : d0.isDigit = true := hu3 d0 (by rw [ht0]; exact List.mem_cons_self _ _)
        rw [hd0] at hdig
        cases hdig
      rw [lexInt.eq_2 _ hlg]
      exact hu4 z hz

end ATS

namespace ATS

theorem lexFracOpt_neg {z : Text} (hz : ∀ c, z.head? = some c → c ≠ '.') :
    lexFracOpt z = ([], z) := by
  cases z with
  | nil => rfl
  | cons c t =>
    have hguard : ∀ r, c :: t = '.' :: r → False := by
      intro r hr
      have hcm : c = '.' := by
        have h3 := congrArg List.head? hr
        simpa using h3
      exact hz c rfl hcm
    exact lexFracOpt.eq_2 _ hguard

theorem lexFracOpt_pos {ds z : Text} (hne : ds ≠ []) (hds : ∀ c ∈ ds, c.isDigit = true)
    (hz : ∀ c, z.head? = some c → c.isDigit = false) :
    lexFracOpt ('.' :: (ds ++ z)) = ('.' :: ds, z) := by
  obtain ⟨hsp1, hsp2⟩ := digits_split hds hz
  rw [lexFracOpt.eq_1, hsp1, hsp2]
  have hie : ds.isEmpty = false := by
    cases ds with
    | nil => exact absurd rfl hne
    | cons a t => rfl
  rw [hie]
  simp

theorem lexFracOpt_spec {s fp r2 : Text} (h : lexFracOpt s = (fp, r2)) :
    (fp = [] ∧ r2 = s) ∨
    (∃ ds, ds ≠ [] ∧ (∀ c ∈ ds, c.isDigit = true) ∧ fp = '.' :: ds ∧ s = fp ++ r2 ∧
      (∀ c, r2.head? = some c → c.isDigit = false)) := by
  cases s with
  | nil =>
    cases h
    exact Or.inl ⟨rfl, rfl⟩
  | cons c t =>
    by_cases hc : c = '.'
    · subst hc
      rw [lexFracOpt.eq_1] at h
      by_cases hie : (t.takeWhile Char.isDigit).isEmpty = true
      · rw [hie] at h
        simp at h
        exact Or.inl ⟨h.1, h.2.symm⟩
      · have hie' : (t.takeWhile Char.isDigit).isEmpty = false := by
          cases hb : (t.takeWhile Char.isDigit).isEmpty
          · rfl
          · exact absurd hb hie
        rw [hie'] at h
        simp at h
        obtain ⟨h1, h2⟩ := h
        refine Or.inr ⟨t.takeWhile Char.isDigit, ?_, ?_, h1.symm, ?_, ?_⟩
        · intro hn
          rw [hn] at hie'
          cases hie'
        · exact fun c hc => List.mem_takeWhile_imp hc
        · rw [← h1, ← h2]
          simp only [List.cons_append, List.takeWhile_append_dropWhile]
        · intro c hc
          cases hr : t.dropWhile Char.isDigit with
          | nil =>
            rw [← h2, hr] at hc
            cases hc
          | cons d u =>
            have hdc : d = c := by
              rw [← h2, hr] at hc
              simpa using hc
            rw [← hdc]
            exact head_dropWhile_false hr
    · have hguard : ∀ r, c :: t = '.' :: r → False := by
        intro r hr
        have hcm : c = '.' := by
          have h3 := congrArg List.head? hr
          simpa using h3
        exact hc hcm
      rw [lexFracOpt.eq_2 _ hguard] at h
      cases h
      exact Or.inl ⟨rfl, rfl⟩

end ATS

namespace ATS

theorem lexExpOpt_neg {z : Text} (hz : ∀ c, z.head? = some c → c ≠ 'e' ∧ c ≠ 'E') :
    lexExpOpt z = ([], z) := by
  cases z with
  | nil => rfl
  | cons c t =>
    cases t with
    | nil =>
      rw [lexExpOpt.eq_2]
      split <;> rfl
    | cons d u =>
      rw [lexExpOpt.eq_1]
      rw [if_neg]
      intro hor
      rcases hor with h | h
      · exact (hz c rfl).1 h
      · exact (hz c rfl).2 h

theorem notSign_of_digit {c : Char} (h : c.isDigit = true) : ¬(c = '+' ∨ c = '-') := by
  intro hor
  rcases hor with hc | hc <;> rw [hc] at h <;> cases h

theorem lexExpOpt_pos_nosign {e0 : Char} {ds z : Text} (he : e0 = 'e' ∨ e0 = 'E')
    (hne : ds ≠ []) (hds : ∀ c ∈ ds, c.isDigit = true)
    (hz : ∀ c, z.head? = some c → c.isDigit = false) :
    lexExpOpt (e0 :: (ds ++ z)) = (e0 :: ds, z) := by
  obtain ⟨d, ds', hds'⟩ := List.exists_cons_of_ne_nil hne
  subst hds'
  obtain ⟨hsp1, hsp2⟩ := digits_split hds hz
  rw [List.cons_append, lexExpOpt.eq_1, if_pos he]
  have hd : d.isDigit = true := hds d (List.mem_cons_self _ _)
  rw [if_neg (notSign_of_digit hd)]
  rw [← List.cons_append, hsp1, hsp2]
  have hie : ((d :: ds').isEmpty : Bool) = false := rfl
  rw [hie]
  simp

theorem lexExpOpt_pos_sign {e0 sgn : Char} {ds z : Text} (he : e0 = 'e' ∨ e0 = 'E')
    (hs : sgn = '+' ∨ sgn = '-') (hne : ds ≠ []) (hds : ∀ c ∈ ds, c.isDigit = true)
    (hz : ∀ c, z.head? = some c → c.isDigit = false) :
    lexExpOpt (e0 :: sgn :: (ds ++ z)) = (e0 :: sgn :: ds, z) := by
  obtain ⟨hsp1, hsp2⟩ := digits_split hds hz
  rw [lexExpOpt.eq_1, if_pos he, if_pos hs, hsp1, hsp2]
  have hie : ds.isEmpty = false := by
    cases ds with
    | nil => exact absurd rfl hne
    | cons a t => rfl
  rw [hie]
  simp

theorem lexExpOpt_spec {s ep r3 : Text} (h : lexExpOpt s = (ep, r3)) :
    (ep = [] ∧ r3 = s) ∨
    (∃ e0 sg ds, (e0 = 'e' ∨ e0 = 'E') ∧ (sg = [] ∨ sg = ['+'] ∨ sg = ['-']) ∧ ds ≠ [] ∧
      (∀ c ∈ ds, c.isDigit = true) ∧ ep = e0 :: (sg ++ ds) ∧ s = ep ++ r3 ∧
      (∀ c, r3.head? = some c → c.isDigit = false)) := by
  cases s with
  | nil =>
    cases h
    exact Or.inl ⟨rfl, rfl⟩
  | cons e0 r =>
    cases r with
    | nil =>
      rw [lexExpOpt.eq_2] at h
      split at h
      · cases h
        exact Or.inl ⟨rfl, rfl⟩
      · cases h
        exact Or.inl ⟨rfl, rfl⟩
    | cons sgn r2 =>
      rw [lexExpOpt.eq_1] at h
      by_cases he : e0 = 'e' ∨ e0 = 'E'
      · rw [if_pos he] at h
        by_cases hs : sgn = '+' ∨ sgn = '-'
        · rw [if_pos hs] at h
          by_cases hie : (r2.takeWhile Char.isDigit).isEmpty = true
          · rw [hie] at h
            simp at h
            exact Or.inl ⟨h.1, h.2.symm⟩
          · have hie' : (r2.takeWhile Char.isDigit).isEmpty = false := by
              cases hb : (r2.takeWhile Char.isDigit).isEmpty
              · rfl
              · exact absurd hb hie
            rw [hie'] at h
            simp at h
            obtain ⟨h1, h2⟩ := h
            refine Or.inr ⟨e0, [sgn], r2.takeWhile Char.isDigit, he, ?_, ?_,
              (fun c hc => List.mem_takeWhile_imp hc), ?_, ?_, ?_⟩
            · rcases hs with h3 | h3
              · exact Or.inr (Or.inl (by rw [h3]))
              · exact Or.inr (Or.inr (by rw [h3]))
            · intro hn
              rw [hn] at hie'
              cases hie'
            · rw [← h1]
              rfl
            · rw [← h1, ← h2]
              simp only [List.cons_append, List.nil_append, List.takeWhile_append_dropWhile]
            · intro c hc
              cases hr : r2.dropWhile Char.isDigit with
              | nil =>
                rw [← h2, hr] at hc
                cases hc
              | cons d u =>
                have hdc : d = c := by
                  rw [← h2, hr] at hc
                  simpa using hc
                rw [← hdc]
                exact head_dropWhile_false hr
        · rw [if_neg hs] at h
          by_cases hie : ((sgn :: r2).takeWhile Char.isDigit).isEmpty = true
          · rw [hie] at h
            simp at h
            exact Or.inl ⟨h.1, h.2.symm⟩
          · have hie' : ((sgn :: r2).takeWhile Char.isDigit).isEmpty = false := by
              cases hb : ((sgn :: r2).takeWhile Char.isDigit).isEmpty
              · rfl
              · exact absurd hb hie
            rw [hie'] at h
            simp at h
            obtain ⟨h1, h2⟩ := h
            refine Or.inr ⟨e0, [], (sgn :: r2).takeWhile Char.isDigit, he, Or.inl rfl, ?_,
              (fun c hc => List.mem_takeWhile_imp hc), ?_, ?_, ?_⟩
            · intro hn
              rw [hn] at hie'
              cases hie'
            · rw [← h1]
              rfl
            · rw [← h1, ← h2]
              simp only [List.cons_append, List.nil_append, List.takeWhile_append_dropWhile]
            · intro c hc
              cases hr : (sgn :: r2).dropWhile Char.isDigit with
              | nil =>
                rw [← h2, hr] at hc
                cases hc
              | cons d u =>
                have hdc : d = c := by
                  rw [← h2, hr] at hc
                  simpa using hc
                rw [← hdc]
                exact head_dropWhile_false hr
      · rw [if_neg he] at h
        cases h
        exact Or.inl ⟨rfl, rfl⟩

end ATS

namespace ATS

/-- Head character facts used to show the fenced dispatch reaches numbers. -/
theorem lexNumber_head {s lex rest : Text} (h : lexNumber s = some (lex, rest)) :
    ∃ c t, s = c :: t ∧ (c = '-' ∨ c.isDigit = true) := by
  unfold lexNumber at h
  rcases hint : lexInt s with _ | ⟨ip, r1⟩
  · rw [hint] at h
    cases h
  · obtain ⟨hi1, ⟨c, t, hct, hc⟩, -, -⟩ := lexInt_spec hint
    refine ⟨c, t ++ r1, ?_, hc⟩
    rw [hi1, hct]
    simp

/-- Full specification of the number lexer: the lexeme is exactly the
consumed text, it ends with a digit, and the scan is unaffected by
replacing the rest across a non-extending boundary. -/
theorem lexNumber_spec {s lex rest : Text} (h : lexNumber s = some (lex, rest)) :
    s = lex ++ rest ∧
    (∃ c, lex.getLast? = some c ∧ c.isDigit = true) ∧
    (goodB rest = true → ∀ z, goodB z = true → lexNumber (lex ++ z) = some (lex, z)) := by
  unfold lexNumber at h
  rcases hint : lexInt s with _ | ⟨ip, r1⟩
  · rw [hint] at h
    cases h
  rcases hfp : lexFracOpt r1 with ⟨fp, r2⟩
  rcases hep : lexExpOpt r2 with ⟨ep, r3⟩
  rw [hint] at h
  simp only [hfp, hep] at h
  cases h
  obtain ⟨hi1, hiHead, hiLast, hiFrame⟩ := lexInt_spec hint
  rcases lexFracOpt_spec hfp with ⟨hfE, hfR⟩ | ⟨ds, hdsNe, hdsDig, hfEq, hfDec, hfHead⟩
  · -- no fraction part
    subst hfE
    rcases lexExpOpt_spec hep with ⟨heE, heR⟩ |
      ⟨e0, sg, eds, he0, hsg, hedsNe, hedsDig, heEq, heDec, heHead⟩
    · -- no exponent part
      subst heE
      subst heR
      subst hfR
      refine ⟨by rw [hi1]; simp, by simpa using hiLast, ?_⟩
      intro hgb z hgz
      have hz1 : ∀ c, z.head? = some c → c.isDigit = false := goodB_head_digit hgz
      have hz2 : ∀ c, z.head? = some c → c ≠ '.' := fun c hc => (goodB_head hgz c hc).2.1
      have hz3 : ∀ c, z.head? = some c → c ≠ 'e' ∧ c ≠ 'E' :=
        fun c hc => ⟨(goodB_head hgz c hc).2.2.1, (goodB_head hgz c hc).2.2.2.1⟩
      have hnorm : ip ++ [] ++ [] = ip := by simp
      rw [hnorm]
      unfold lexNumber
      rw [hiFrame z hz1]
      simp only [lexFracOpt_neg hz2, lexExpOpt_neg hz3]
      simp
    · -- exponent part present, no fraction
      subst hfR
      refine ⟨?_, ?_, ?_⟩
      · rw [hi1, heDec, heEq]
        simp
      · obtain ⟨d, hd1, hd2⟩ := getLast?_all hedsNe hedsDig
        refine ⟨d, ?_, hd2⟩
        have hsgds : (sg ++ eds) ≠ [] := by
          intro hn
          rcases List.append_eq_nil.mp hn with ⟨-, h2⟩
          exact hedsNe h2
        rw [List.getLast?_append_of_ne_nil _ (by simp [heEq]), heEq,
          getLast?_cons_of_ne_nil hsgds, List.getLast?_append_of_ne_nil _ hedsNe]
        exact hd1
      · intro hgb z hgz
        have hzdig : ∀ c, z.head? = some c → c.isDigit = false := goodB_head_digit hgz
        have hb1 : ∀ c, (ep ++ z).head? = some c → c.isDigit = false := by
          intro c hc
          rw [heEq] at hc
          have he0c : e0 = c := by simpa using hc
          subst he0c
          rcases he0 with h1 | h1 <;> rw [h1] <;> decide
        have hb2 : ∀ c, (ep ++ z).head? = some c → c ≠ '.' := by
          intro c hc
          rw [heEq] at hc
          have he0c : e0 = c := by simpa using hc
          subst he0c
          rcases he0 with h1 | h1 <;> rw [h1] <;> decide
        have hstep1 : lexInt (ip ++ [] ++ ep ++ z) = some (ip, ep ++ z) := by
          have h4 := hiFrame (ep ++ z) hb1
          rw [show ip ++ (ep ++ z) = ip ++ [] ++ ep ++ z from by simp] at h4
          exact h4
        have hstep3 : lexExpOpt (ep ++ z) = (ep, z) := by
          rw [heEq]
          rcases hsg with h1 | h1 | h1
          · subst h1
            simp only [List.nil_append, List.cons_append]
            exact lexExpOpt_pos_nosign he0 hedsNe hedsDig hzdig
          · subst h1
            simp only [List.cons_append, List.nil_append, List.append_assoc]
            exact lexExpOpt_pos_sign he0 (Or.inl rfl) hedsNe hedsDig hzdig
          · subst h1
            simp only [List.cons_append, List.nil_append, List.append_assoc]
            exact lexExpOpt_pos_sign he0 (Or.inr rfl) hedsNe hedsDig hzdig
        unfold lexNumber
        rw [hstep1]
        simp only [lexFracOpt_neg hb2, hstep3]
  · -- fraction part present
    rcases lexExpOpt_spec hep with ⟨heE, heR⟩ |
      ⟨e0, sg, eds, he0, hsg, hedsNe, hedsDig, heEq, heDec, heHead⟩
    · -- fraction, no exponent
      subst heE
      subst heR
      refine ⟨?_, ?_, ?_⟩
      · rw [hi1, hfDec, hfEq]
        simp
      · obtain ⟨d, hd1, hd2⟩ := getLast?_all hdsNe hdsDig
        refine ⟨d, ?_, hd2⟩
        rw [hfEq]
        rw [show ip ++ '.' :: ds ++ [] = ip ++ '.' :: ds from by simp,
          List.getLast?_append_of_ne_nil _ (by simp), getLast?_cons_of_ne_nil hdsNe]
        exact hd1
      · intro hgb z hgz
        have hzdig : ∀ c, z.head? = some c → c.isDigit = false := goodB_head_digit hgz
        have hb1 : ∀ c, (fp ++ z).head? = some c → c.isDigit = false := by
          intro c hc
          rw [hfEq] at hc
          have hdot : '.' = c := by simpa using hc
          rw [← hdot]
          decide
        have hstep1 : lexInt (ip ++ fp ++ [] ++ z) = some (ip, fp ++ z) := by
          have h4 := hiFrame (fp ++ z) hb1
          rw [show ip ++ (fp ++ z) = ip ++ fp ++ [] ++ z from by simp] at h4
          exact h4
        have hstep2 : lexFracOpt (fp ++ z) = (fp, z) := by
          rw [hfEq]
          simp only [List.cons_append]
          exact lexFracOpt_pos hdsNe hdsDig hzdig
        have hz3 : ∀ c, z.head? = some c → c ≠ 'e' ∧ c ≠ 'E' :=
          fun c hc => ⟨(goodB_head hgz c hc).2.2.1, (goodB_head hgz c hc).2.2.2.1⟩
        unfold lexNumber
        rw [hstep1]
        simp only [hstep2, lexExpOpt_neg hz3]
    · -- fraction and exponent
      refine ⟨?_, ?_, ?_⟩
      · rw [hi1, hfDec, heDec]
        simp
      · obtain ⟨d, hd1, hd2⟩ := getLast?_all hedsNe hedsDig
        refine ⟨d, ?_, hd2⟩
        have hsgds : (sg ++ eds) ≠ [] := by
          intro hn
          rcases List.append_eq_nil.mp hn with ⟨-, h2⟩
          exact hedsNe h2
        rw [List.getLast?_append_of_ne_nil _ (by simp [heEq]), heEq,
          getLast?_cons_of_ne_nil hsgds, List.getLast?_append_of_ne_nil _ hedsNe]
        exact hd1
      · intro hgb z hgz
        have hzdig : ∀ c, z.head? = some c → c.isDigit = false := goodB_head_digit hgz
        have hepHead : ∀ c, (ep ++ z).head? = some c → c.isDigit = false := by
          intro c hc
          rw [heEq] at hc
          have he0c : e0 = c := by simpa using hc
          subst he0c
          rcases he0 with h1 | h1 <;> rw [h1] <;> decide
        have hb1 : ∀ c, (fp ++ (ep ++ z)).head? = some c → c.isDigit = false := by
          intro c hc
          rw [hfEq] at hc
          have hdot : '.' = c := by simpa using hc
          rw [← hdot]
          decide
        have hstep1 : lexInt (ip ++ fp ++ ep ++ z) = some (ip, fp ++ (ep ++ z)) := by
          have h4 := hiFrame (fp ++ (ep ++ z)) hb1
          rw [show ip ++ (fp ++ (ep ++ z)) = ip ++ fp ++ ep ++ z from by simp] at h4
          exact h4
        have hstep2 : lexFracOpt (fp ++ (ep ++ z)) = (fp, ep ++ z) := by
          rw [hfEq]
          simp only [List.cons_append]
          exact lexFracOpt_pos hdsNe hdsDig hepHead
        have hstep3 : lexExpOpt (ep ++ z) = (ep, z) := by
          rw [heEq]
          rcases hsg with h1 | h1 | h1
          · subst h1
            simp only [List.nil_append, List.cons_append]
            exact lexExpOpt_pos_nosign he0 hedsNe hedsDig hzdig
          · subst h1
            simp only [List.cons_append, List.nil_append, List.append_assoc]
            exact lexExpOpt_pos_sign he0 (Or.inl rfl) hedsNe hedsDig hzdig
          · subst h1
            simp only [List.cons_append, List.nil_append, List.append_assoc]
            exact lexExpOpt_pos_sign he0 (Or.inr rfl) hedsNe hedsDig hzdig
        unfold lexNumber
        rw [hstep1]
        simp only [hstep2, hstep3]

end ATS

namespace ATS

/-! ### Soundness of the parser with respect to the derivation relation -/

theorem consEqHead {a b : Char} {t u : List Char} (h : a :: t = b :: u) : a = b := by
  have h2 := congrArg List.head? h
  simpa using h2

theorem isPrefixOf_decomp {pat s : Text} (h : pat.isPrefixOf s = true) :
    s = pat ++ s.drop pat.length := by
  obtain ⟨t, ht⟩ := List.isPrefixOf_iff_prefix.mp h
  have h2 : (pat ++ t).drop pat.length = t := List.drop_left _ _
  rw [← ht, h2]

theorem parseSound (fuel : Nat) :
    (∀ s v r, parseValue fuel s = some (v, r) → Der PKind.val s v r) ∧
    (∀ acc s o r, parseElems fuel acc s = some (o, r) →
      ∃ vs, o = Json.arr (acc ++ vs) ∧ Der PKind.arrTail s (Json.arr vs) r) ∧
    (∀ acc s o r, parseMembers fuel acc s = some (o, r) →
      ∃ kvs, o = Json.obj (acc ++ kvs) ∧ Der PKind.objTail s (Json.obj kvs) r) := by
  induction fuel with
  | zero =>
    refine ⟨?_, ?_, ?_⟩
    · intro s v r h
      rw [parseValue.eq_1] at h
      cases h
    · intro acc s o r h
      rw [parseElems.eq_1] at h
      cases h
    · intro acc s o r h
      rw [parseMembers.eq_1] at h
      cases h
  | succ fuel ih =>
    obtain ⟨ihV, ihE, ihM⟩ := ih
    refine ⟨?_, ?_, ?_⟩
    · -- parseValue
      intro s v r h
      rcases s with _ | ⟨c, r0⟩
      · rw [parseValue.eq_5 [] fuel (fun r hr => by cases hr) (fun r hr => by cases hr)
          (fun r hr => by cases hr)] at h
        cases h
      by_cases hq : c = '"'
      · subst hq
        rw [parseValue.eq_2] at h
        rcases hls : lexString r0 with _ | ⟨cs, rest⟩
        · rw [hls] at h
          cases h
        · rw [hls] at h
          cases h
          exact Der.vstr hls
      by_cases hob : c = '\x7b'
      · subst hob
        rw [parseValue.eq_3] at h
        split at h
        next x rest heq =>
          cases h
          exact Der.vobjE heq
        next x hguard =>
          obtain ⟨kvs, ho, hder⟩ := ihM [] (skipWs r0) v r h
          rw [ho]
          simp only [List.nil_append]
          exact Der.vobj hder
      by_cases har : c = '['
      · subst har
        rw [parseValue.eq_4] at h
        split at h
        next x rest heq =>
          cases h
          exact Der.varrE heq
        next x hguard =>
          obtain ⟨vs, ho, hder⟩ := ihE [] (skipWs r0) v r h
          rw [ho]
          simp only [List.nil_append]
          exact Der.varr hder
      -- default dispatch
      have g1 : ∀ rr, c :: r0 = '"' :: rr → False := fun rr hr => hq (consEqHead hr)
      have g2 : ∀ rr, c :: r0 = '\x7b' :: rr → False := fun rr hr => hob (consEqHead hr)
      have g3 : ∀ rr, c :: r0 = '[' :: rr → False := fun rr hr => har (consEqHead hr)
      rw [parseValue.eq_5 (c :: r0) fuel g1 g2 g3] at h
      by_cases hnull : ("null".data).isPrefixOf (c :: r0) = true
      · rw [if_pos hnull] at h
        cases h
        have hd := isPrefixOf_decomp hnull
        rw [hd]
        exact Der.vnull
      rw [if_neg hnull] at h
      by_cases htrue : ("true".data).isPrefixOf (c :: r0) = true
      · rw [if_pos htrue] at h
        cases h
        have hd := isPrefixOf_decomp htrue
        rw [hd]
        exact Der.vtrue
      rw [if_neg htrue] at h
      by_cases hfalse : ("false".data).isPrefixOf (c :: r0) = true
      · rw [if_pos hfalse] at h
        cases h
        have hd := isPrefixOf_decomp hfalse
        rw [hd]
        exact Der.vfalse
      rw [if_neg hfalse] at h
      rcases hnum : lexNumber (c :: r0) with _ | ⟨lex, restN⟩
      · rw [hnum] at h
        by_cases hnan : ("NaN".data).isPrefixOf (c :: r0) = true
        · rw [if_pos hnan] at h
          cases h
          have hd := isPrefixOf_decomp hnan
          rw [hd]
          exact Der.vnan
        rw [if_neg hnan] at h
        by_cases hinf : ("Infinity".data).isPrefixOf (c :: r0) = true
        · rw [if_pos hinf] at h
          cases h
          have hd := isPrefixOf_decomp hinf
          rw [hd]
          exact Der.vinf
        rw [if_neg hinf] at h
        by_cases hninf : ("-Infinity".data).isPrefixOf (c :: r0) = true
        · rw [if_pos hninf] at h
          cases h
          have hd := isPrefixOf_decomp hninf
          rw [hd]
          exact Der.vninf
        rw [if_neg hninf] at h
        cases h
      · rw [hnum] at h
        cases h
        exact Der.vnum hnum
    · -- parseElems
      intro acc s o r h
      rw [parseElems.eq_2] at h
      rcases hpv : parseValue fuel s with _ | ⟨v1, r1⟩
      · rw [hpv] at h
        cases h
      simp only [hpv] at h
      have hder1 : Der PKind.val s v1 r1 := ihV s v1 r1 hpv
      split at h
      next x r2 heq =>
        obtain ⟨vs, ho, hder2⟩ := ihE (acc ++ [v1]) (skipWs r2) o r h
        refine ⟨v1 :: vs, by rw [ho]; simp, ?_⟩
        exact Der.aCons hder1 heq hder2
      next x r2 heq =>
        cases h
        exact ⟨[v1], by simp, Der.aLast hder1 heq⟩
      next x g1 g2 =>
        cases h
    · -- parseMembers
      intro acc s o r h
      rcases s with _ | ⟨c, r0⟩
      · rw [parseMembers.eq_3 acc [] fuel (fun r hr => by cases hr)] at h
        cases h
      by_cases hq : c = '"'
      · subst hq
        rw [parseMembers.eq_2] at h
        rcases hls : lexString r0 with _ | ⟨key, r1⟩
        · rw [hls] at h
          cases h
        simp only [hls] at h
        split at h
        next x r2 heq =>
          rcases hpv : parseValue fuel (skipWs r2) with _ | ⟨v1, r3⟩
          · rw [hpv] at h
            cases h
          simp only [hpv] at h
          have hder1 : Der PKind.val (skipWs r2) v1 r3 := ihV _ _ _ hpv
          split at h
          next y r4 heq2 =>
            obtain ⟨kvs, ho, hder2⟩ := ihM (acc ++ [(key, v1)]) (skipWs r4) o r h
            refine ⟨(key, v1) :: kvs, by rw [ho]; simp, ?_⟩
            exact Der.mCons hls heq hder1 heq2 hder2
          next y r4 heq2 =>
            cases h
            exact ⟨[(key, v1)], by simp, Der.mLast hls heq hder1 heq2⟩
          next y g1 g2 =>
            cases h
        next x hguard =>
          cases h
      · rw [parseMembers.eq_3 acc (c :: r0) fuel
          (fun rr hr => hq (consEqHead hr))] at h
        cases h

end ATS

namespace ATS

/-! ### Basic facts about derivations -/

theorem dropWhile_decomp_ex {p : Char → Bool} {l z : Text} (h : List.dropWhile p l = z) :
    ∃ w, (∀ c ∈ w, p c = true) ∧ l = w ++ z :=
  ⟨l.takeWhile p, all_takeWhile, dropWhile_decomp h⟩

theorem getLast?_ne_nil {l : Text} {c : Char} (h : l.getLast? = some c) : l ≠ [] := by
  intro hn
  rw [hn] at h
  cases h

theorem skipWs_len (r : Text) : (skipWs r).length ≤ r.length :=
  @length_dropWhile_le isJsonWs r

/-- The rest of a derivation is strictly shorter than its input. -/
theorem derLen {k : PKind} {s : Text} {out : Json} {rest : Text} (h : Der k s out rest) :
    rest.length < s.length := by
  induction h with
  | vstr hls =>
    rename_i r1 cs rest1
    obtain ⟨D, hD, -⟩ := lexString_spec _ _ _ hls
    rw [hD]
    simp only [List.length_cons, List.length_append]
    omega
  | vnull => simp only [List.length_cons]; omega
  | vtrue => simp only [List.length_cons]; omega
  | vfalse => simp only [List.length_cons]; omega
  | vnum hnum =>
    rename_i s1 lex1 rest1
    obtain ⟨hs, hex, -⟩ := lexNumber_spec hnum
    obtain ⟨c, hlast, -⟩ := hex
    have hpos : 0 < lex1.length := List.length_pos.mpr (getLast?_ne_nil hlast)
    rw [hs]
    simp only [List.length_append]
    omega
  | vnan => simp only [List.length_cons]; omega
  | vinf => simp only [List.length_cons]; omega
  | vninf => simp only [List.length_cons]; omega
  | vobjE heq =>
    rename_i r1 rest1
    have h1 : ('\x7d' :: rest1).length ≤ r1.length := by
      rw [← heq]; exact skipWs_len r1
    simp only [List.length_cons] at h1 ⊢
    omega
  | vobj hsub ih =>
    rename_i r1 kvs rest1
    have h1 := skipWs_len r1
    simp only [List.length_cons]
    omega
  | varrE heq =>
    rename_i r1 rest1
    have h1 : (']' :: rest1).length ≤ r1.length := by
      rw [← heq]; exact skipWs_len r1
    simp only [List.length_cons] at h1 ⊢
    omega
  | varr hsub ih =>
    rename_i r1 vs rest1
    have h1 := skipWs_len r1
    simp only [List.length_cons]
    omega
  | mLast hls hcolon hval hclose ihval =>
    rename_i r1 k1 r1a r2 v r3 r4
    obtain ⟨D, hD, -⟩ := lexString_spec _ _ _ hls
    have hA : ('\x7d' :: r4).length ≤ r3.length := by
      rw [← hclose]; exact skipWs_len r3
    have hC := skipWs_len r2
    have hDn : (':' :: r2).length ≤ r1a.length := by
      rw [← hcolon]; exact skipWs_len r1a
    rw [hD]
    simp only [List.length_cons, List.length_append] at hA hDn ⊢
    omega
  | mCons hls hcolon hval hcomma htail ihval ihtail =>
    rename_i r1 k1 r1a r2 v r3 r4 kvs rest1
    obtain ⟨D, hD, -⟩ := lexString_spec _ _ _ hls
    have hA : (',' :: r4).length ≤ r3.length := by
      rw [← hcomma]; exact skipWs_len r3
    have hB := skipWs_len r4
    have hC := skipWs_len r2
    have hDn : (':' :: r2).length ≤ r1a.length := by
      rw [← hcolon]; exact skipWs_len r1a
    rw [hD]
    simp only [List.length_cons, List.length_append] at hA hDn ⊢
    omega
  | aLast hval hclose ihval =>
    rename_i s1 v r1 r2
    have hA : (']' :: r2).length ≤ r1.length := by
      rw [← hclose]; exact skipWs_len r1
    simp only [List.length_cons] at hA
    omega
  | aCons hval hcomma htail ihval ihtail =>
    rename_i s1 v r1 r2 vs rest1
    have hA : (',' :: r2).length ≤ r1.length := by
      rw [← hcomma]; exact skipWs_len r1
    have hB := skipWs_len r2
    simp only [List.length_cons] at hA
    omega

end ATS

namespace ATS

/-! ### Whitespace and boundary facts -/

theorem pyWs_cases {c : Char} (h : isPyWs c = true) :
    c = ' ' ∨ c = '\t' ∨ c = '\n' ∨ c = '\r' ∨ c = '\x0b' ∨ c = '\x0c' ∨ c = '\x1c' ∨
    c = '\x1d' ∨ c = '\x1e' ∨ c = '\x1f' ∨ c = '\x85' ∨ c = '\xa0' := by
  simp only [isPyWs, Bool.or_eq_true, beq_iff_eq] at h
  tauto

theorem digit_not_pyWs {c : Char} (h : c.isDigit = true) : isPyWs c = false := by
  cases hx : isPyWs c
  · rfl
  · rcases pyWs_cases hx with h1|h1|h1|h1|h1|h1|h1|h1|h1|h1|h1|h1 <;>
      subst h1 <;> exact absurd h (by decide)

theorem jsonWs_pyWs {c : Char} (h : isJsonWs c = true) : isPyWs c = true := by
  simp only [isJsonWs, Bool.or_eq_true, beq_iff_eq] at h
  rcases h with ((h|h)|h)|h <;> subst h <;> decide

theorem notPyWs_notJsonWs {c : Char} (h : isPyWs c = false) : isJsonWs c = false := by
  cases hx : isJsonWs c
  · rfl
  · rw [jsonWs_pyWs hx] at h
    cases h

theorem jsonWs_notBad {a : Char} (h : isJsonWs a = true) :
    (a.isDigit || a == '.' || a == 'e' || a == 'E' || a == '+' || a == '-') = false := by
  simp only [isJsonWs, Bool.or_eq_true, beq_iff_eq] at h
  rcases h with ((h|h)|h)|h <;> subst h <;> decide

theorem goodB_ws_append {w t : Text} (hw : ∀ a ∈ w, isJsonWs a = true)
    (ht : goodB t = true) : goodB (w ++ t) = true := by
  cases w with
  | nil => simpa using ht
  | cons a w1 =>
    have ha := hw a (List.mem_cons_self a w1)
    simp only [List.cons_append, goodB]
    rw [jsonWs_notBad ha]
    rfl

theorem goodB_of_skipWs {r t : Text} {c : Char} (h : skipWs r = c :: t)
    (hc : (c.isDigit || c == '.' || c == 'e' || c == 'E' || c == '+' || c == '-') = false) :
    goodB r = true := by
  obtain ⟨w, hw, hr⟩ := dropWhile_decomp_ex h
  rw [hr]
  exact goodB_ws_append hw (by simp only [goodB]; rw [hc]; rfl)

theorem goodB_of_skipWs_nil {r : Text} (h : skipWs r = []) : goodB r = true := by
  obtain ⟨w, hw, hr⟩ := dropWhile_decomp_ex h
  rw [hr]
  exact goodB_ws_append hw rfl

/-- A value derivation's input starts with a non-whitespace character (in
the Python `str.strip` sense). -/
theorem derValHead {s : Text} {v : Json} {rest : Text} (h : Der PKind.val s v rest) :
    ∃ c t, s = c :: t ∧ isPyWs c = false := by
  cases h with
  | vstr hls => exact ⟨_, _, rfl, by decide⟩
  | vnull => exact ⟨_, _, rfl, by decide⟩
  | vtrue => exact ⟨_, _, rfl, by decide⟩
  | vfalse => exact ⟨_, _, rfl, by decide⟩
  | vnum hnum =>
    obtain ⟨c, t, hct, hc⟩ := lexNumber_head hnum
    refine ⟨c, t, hct, ?_⟩
    rcases hc with hc | hc
    · subst hc; decide
    · exact digit_not_pyWs hc
  | vnan => exact ⟨_, _, rfl, by decide⟩
  | vinf => exact ⟨_, _, rfl, by decide⟩
  | vninf => exact ⟨_, _, rfl, by decide⟩
  | vobjE heq => exact ⟨_, _, rfl, by decide⟩
  | vobj hsub => exact ⟨_, _, rfl, by decide⟩
  | varrE heq => exact ⟨_, _, rfl, by decide⟩
  | varr hsub => exact ⟨_, _, rfl, by decide⟩

end ATS

namespace ATS

/-! ### The frame property of derivations -/

theorem getLast?_decomp {l : Text} {c : Char} (h : l.getLast? = some c) :
    ∃ b, l = b ++ [c] := by
  induction l with
  | nil => cases h
  | cons a t ih =>
    cases t with
    | nil =>
      rw [List.getLast?_singleton] at h
      cases h
      exact ⟨[], rfl⟩
    | cons b2 t2 =>
      rw [List.getLast?_cons_cons] at h
      obtain ⟨b1, hb1⟩ := ih h
      exact ⟨a :: b1, by rw [hb1]; rfl⟩

theorem der_congr {k : PKind} {s1 s2 : Text} {v : Json} {r : Text}
    (h : Der k s1 v r) (he : s1 = s2) : Der k s2 v r := he ▸ h

theorem goodB_cons {c : Char} {t : Text}
    (hc : (c.isDigit || c == '.' || c == 'e' || c == 'E' || c == '+' || c == '-') = false) :
    goodB (c :: t) = true := by
  simp only [goodB]
  rw [hc]
  rfl

theorem skipWs_decomp {r z : Text} (h : skipWs r = z) :
    ∃ w, (∀ c ∈ w, isJsonWs c = true) ∧ r = w ++ z := dropWhile_decomp_ex h

/-- Replacing the rest of a derivation by any boundary-compatible tail again
yields a derivation; the consumed body starts and ends with non-whitespace
characters. -/
theorem derFrame {k : PKind} {s : Text} {v : Json} {rest : Text} (h : Der k s v rest) :
    goodB rest = true →
    ∃ body, s = body ++ rest ∧
      (∃ a t, body = a :: t ∧ isJsonWs a = false) ∧
      (∃ b c, body = b ++ [c] ∧ isPyWs c = false) ∧
      (∀ z, goodB z = true → Der k (body ++ z) v z) := by
  induction h with
  | vstr hls =>
    rename_i r1 cs rest1
    intro hg
    obtain ⟨D, hD, hDz⟩ := lexString_spec _ _ _ hls
    refine ⟨'"' :: (D ++ ['"']), ?_, ⟨'"', _, rfl, by decide⟩,
      ⟨'"' :: D, '"', by simp, by decide⟩, ?_⟩
    · rw [hD]; simp
    · intro z hz
      exact der_congr (Der.vstr (hDz z)) (by simp)
  | vnull =>
    rename_i rest1
    intro hg
    refine ⟨['n','u','l','l'], rfl, ⟨'n', _, rfl, by decide⟩,
      ⟨['n','u','l'], 'l', rfl, by decide⟩, ?_⟩
    intro z hz
    exact Der.vnull
  | vtrue =>
    rename_i rest1
    intro hg
    refine ⟨['t','r','u','e'], rfl, ⟨'t', _, rfl, by decide⟩,
      ⟨['t','r','u'], 'e', rfl, by decide⟩, ?_⟩
    intro z hz
    exact Der.vtrue
  | vfalse =>
    rename_i rest1
    intro hg
    refine ⟨['f','a','l','s','e'], rfl, ⟨'f', _, rfl, by decide⟩,
      ⟨['f','a','l','s'], 'e', rfl, by decide⟩, ?_⟩
    intro z hz
    exact Der.vfalse
  | vnum hnum =>
    rename_i s1 lex1 rest1
    intro hg
    obtain ⟨hs, hex, hframe⟩ := lexNumber_spec hnum
    obtain ⟨c, hlast, hcd⟩ := hex
    obtain ⟨b, hb⟩ := getLast?_decomp hlast
    obtain ⟨c0, t0, hct, hc0⟩ := lexNumber_head hnum
    have hne : lex1 ≠ [] := by rw [hb]; simp
    obtain ⟨a, t1, hat⟩ := List.exists_cons_of_ne_nil hne
    have hac0 : a = c0 := by
      rw [hat] at hs
      rw [hs] at hct
      simp only [List.cons_append] at hct
      exact consEqHead hct
    have haw : isJsonWs a = false := by
      rw [hac0]
      rcases hc0 with h1 | h1
      · rw [h1]; decide
      · exact notPyWs_notJsonWs (digit_not_pyWs h1)
    refine ⟨lex1, hs, ⟨a, t1, hat, haw⟩, ⟨b, c, hb, digit_not_pyWs hcd⟩, ?_⟩
    intro z hz
    exact Der.vnum (hframe hg z hz)
  | vnan =>
    rename_i rest1
    intro hg
    refine ⟨['N','a','N'], rfl, ⟨'N', _, rfl, by decide⟩,
      ⟨['N','a'], 'N', rfl, by decide⟩, ?_⟩
    intro z hz
    exact Der.vnan
  | vinf =>
    rename_i rest1
    intro hg
    refine ⟨['I','n','f','i','n','i','t','y'], rfl, ⟨'I', _, rfl, by decide⟩,
      ⟨['I','n','f','i','n','i','t'], 'y', rfl, by decide⟩, ?_⟩
    intro z hz
    exact Der.vinf
  | vninf =>
    rename_i rest1
    intro hg
    refine ⟨['-','I','n','f','i','n','i','t','y'], rfl, ⟨'-', _, rfl, by decide⟩,
      ⟨['-','I','n','f','i','n','i','t'], 'y', rfl, by decide⟩, ?_⟩
    intro z hz
    exact Der.vninf
  | vobjE heq =>
    rename_i r1 rest1
    intro hg
    obtain ⟨w, hw, hr⟩ := skipWs_decomp heq
    refine ⟨'\x7b' :: (w ++ ['\x7d']), ?_, ⟨'\x7b', _, rfl, by decide⟩,
      ⟨'\x7b' :: w, '\x7d', by simp, by decide⟩, ?_⟩
    · rw [hr]; simp
    · intro z hz
      exact der_congr (Der.vobjE (skipWs_append hw (by decide))) (by simp)
  | vobj hsub ih =>
    rename_i r1 kvs rest1
    intro hg
    obtain ⟨body1, hb1, ⟨a1, t1, hat1, ha1⟩, ⟨b1, c1, hbc1, hc1⟩, hfr1⟩ := ih hg
    obtain ⟨w, hw, hr⟩ := skipWs_decomp (rfl : skipWs r1 = skipWs r1)
    rw [hb1] at hr
    refine ⟨'\x7b' :: (w ++ body1), ?_, ⟨'\x7b', _, rfl, by decide⟩,
      ⟨'\x7b' :: (w ++ b1), c1, by rw [hbc1]; simp, hc1⟩, ?_⟩
    · rw [hr]; simp
    · intro z hz
      have hskip : skipWs (w ++ (body1 ++ z)) = body1 ++ z := by
        rw [hat1]
        simp only [List.cons_append]
        exact skipWs_append hw ha1
      exact der_congr (Der.vobj (der_congr (hfr1 z hz) hskip.symm)) (by simp)
  | varrE heq =>
    rename_i r1 rest1
    intro hg
    obtain ⟨w, hw, hr⟩ := skipWs_decomp heq
    refine ⟨'[' :: (w ++ [']']), ?_, ⟨'[', _, rfl, by decide⟩,
      ⟨'[' :: w, ']', by simp, by decide⟩, ?_⟩
    · rw [hr]; simp
    · intro z hz
      exact der_congr (Der.varrE (skipWs_append hw (by decide))) (by simp)
  | varr hsub ih =>
    rename_i r1 vs rest1
    intro hg
    obtain ⟨body1, hb1, ⟨a1, t1, hat1, ha1⟩, ⟨b1, c1, hbc1, hc1⟩, hfr1⟩ := ih hg
    obtain ⟨w, hw, hr⟩ := skipWs_decomp (rfl : skipWs r1 = skipWs r1)
    rw [hb1] at hr
    refine ⟨'[' :: (w ++ body1), ?_, ⟨'[', _, rfl, by decide⟩,
      ⟨'[' :: (w ++ b1), c1, by rw [hbc1]; simp, hc1⟩, ?_⟩
    · rw [hr]; simp
    · intro z hz
      have hskip : skipWs (w ++ (body1 ++ z)) = body1 ++ z := by
        rw [hat1]
        simp only [List.cons_append]
        exact skipWs_append hw ha1
      exact der_congr (Der.varr (der_congr (hfr1 z hz) hskip.symm)) (by simp)
  | mLast hls hcolon hval hclose ihval =>
    rename_i r1 k1 r1a r2 v1 r3 r4
    intro hg
    obtain ⟨D, hD, hDz⟩ := lexString_spec _ _ _ hls
    obtain ⟨w1, hw1, hr1⟩ := skipWs_decomp hcolon
    obtain ⟨w2, hw2, hr2⟩ := skipWs_decomp (rfl : skipWs r2 = skipWs r2)
    have hg3 : goodB r3 = true := goodB_of_skipWs hclose (by decide)
    obtain ⟨body1, hb1, ⟨a1, t1, hat1, ha1⟩, -, hfr1⟩ := ihval hg3
    rw [hb1] at hr2
    obtain ⟨w3, hw3, hr3⟩ := skipWs_decomp hclose
    refine ⟨'"' :: (D ++ '"' :: (w1 ++ ':' :: (w2 ++ (body1 ++ (w3 ++ ['\x7d']))))), ?_,
      ⟨'"', _, rfl, by decide⟩,
      ⟨'"' :: (D ++ '"' :: (w1 ++ ':' :: (w2 ++ (body1 ++ w3)))), '\x7d', by simp, by decide⟩, ?_⟩
    · rw [hD, hr1, hr2, hr3]; simp
    · intro z hz
      have hzA : goodB (w3 ++ '\x7d' :: z) = true :=
        goodB_ws_append hw3 (goodB_cons (by decide))
      have hsk2 : skipWs (w2 ++ (body1 ++ (w3 ++ '\x7d' :: z))) =
          body1 ++ (w3 ++ '\x7d' :: z) := by
        rw [hat1]
        simp only [List.cons_append]
        exact skipWs_append hw2 ha1
      have hvd : Der PKind.val (skipWs (w2 ++ (body1 ++ (w3 ++ '\x7d' :: z)))) v1
          (w3 ++ '\x7d' :: z) :=
        der_congr (hfr1 (w3 ++ '\x7d' :: z) hzA) hsk2.symm
      have hd := Der.mLast (hDz (w1 ++ ':' :: (w2 ++ (body1 ++ (w3 ++ '\x7d' :: z)))))
        (skipWs_append hw1 (by decide)) hvd (skipWs_append hw3 (by decide))
      exact der_congr hd (by simp)
  | mCons hls hcolon hval hcomma htail ihval ihtail =>
    rename_i r1 k1 r1a r2 v1 r3 r4 kvs rest1
    intro hg
    obtain ⟨D, hD, hDz⟩ := lexString_spec _ _ _ hls
    obtain ⟨w1, hw1, hr1⟩ := skipWs_decomp hcolon
    obtain ⟨w2, hw2, hr2⟩ := skipWs_decomp (rfl : skipWs r2 = skipWs r2)
    have hg3 : goodB r3 = true := goodB_of_skipWs hcomma (by decide)
    obtain ⟨body1, hb1, ⟨a1, t1, hat1, ha1⟩, -, hfr1⟩ := ihval hg3
    rw [hb1] at hr2
    obtain ⟨w3, hw3, hr3⟩ := skipWs_decomp hcomma
    obtain ⟨w4, hw4, hr4⟩ := skipWs_decomp (rfl : skipWs r4 = skipWs r4)
    obtain ⟨body2, hb2, ⟨a2, t2, hat2, ha2⟩, ⟨b2, c2, hbc2, hc2⟩, hfr2⟩ := ihtail hg
    rw [hb2] at hr4
    refine ⟨'"' :: (D ++ '"' :: (w1 ++ ':' :: (w2 ++ (body1 ++ (w3 ++ ',' :: (w4 ++ body2)))))), ?_,
      ⟨'"', _, rfl, by decide⟩,
      ⟨'"' :: (D ++ '"' :: (w1 ++ ':' :: (w2 ++ (body1 ++ (w3 ++ ',' :: (w4 ++ b2)))))), c2,
        by rw [hbc2]; simp, hc2⟩, ?_⟩
    · rw [hD, hr1, hr2, hr3, hr4]; simp
    · intro z hz
      have hsk4 : skipWs (w4 ++ (body2 ++ z)) = body2 ++ z := by
        rw [hat2]
        simp only [List.cons_append]
        exact skipWs_append hw4 ha2
      have htd : Der PKind.objTail (skipWs (w4 ++ (body2 ++ z))) (Json.obj kvs) z :=
        der_congr (hfr2 z hz) hsk4.symm
      have hzA : goodB (w3 ++ ',' :: (w4 ++ (body2 ++ z))) = true :=
        goodB_ws_append hw3 (goodB_cons (by decide))
      have hsk2 : skipWs (w2 ++ (body1 ++ (w3 ++ ',' :: (w4 ++ (body2 ++ z))))) =
          body1 ++ (w3 ++ ',' :: (w4 ++ (body2 ++ z))) := by
        rw [hat1]
        simp only [List.cons_append]
        exact skipWs_append hw2 ha1
      have hvd : Der PKind.val (skipWs (w2 ++ (body1 ++ (w3 ++ ',' :: (w4 ++ (body2 ++ z)))))) v1
          (w3 ++ ',' :: (w4 ++ (body2 ++ z))) :=
        der_congr (hfr1 (w3 ++ ',' :: (w4 ++ (body2 ++ z))) hzA) hsk2.symm
      have hd := Der.mCons
        (hDz (w1 ++ ':' :: (w2 ++ (body1 ++ (w3 ++ ',' :: (w4 ++ (body2 ++ z)))))))
        (skipWs_append hw1 (by decide)) hvd (skipWs_append hw3 (by decide)) htd
      exact der_congr hd (by simp)
  | aLast hval hclose ihval =>
    rename_i s1 v1 r1 r2
    intro hg
    have hg1 : goodB r1 = true := goodB_of_skipWs hclose (by decide)
    obtain ⟨body1, hb1, ⟨a1, t1, hat1, ha1⟩, -, hfr1⟩ := ihval hg1
    obtain ⟨w3, hw3, hr3⟩ := skipWs_decomp hclose
    refine ⟨body1 ++ (w3 ++ [']']), ?_,
      ⟨a1, t1 ++ (w3 ++ [']']), by rw [hat1]; simp, ha1⟩,
      ⟨body1 ++ w3, ']', by simp, by decide⟩, ?_⟩
    · rw [hb1, hr3]; simp
    · intro z hz
      have hzA : goodB (w3 ++ ']' :: z) = true :=
        goodB_ws_append hw3 (goodB_cons (by decide))
      have hd := Der.aLast (hfr1 (w3 ++ ']' :: z) hzA) (skipWs_append hw3 (by decide))
      exact der_congr hd (by simp)
  | aCons hval hcomma htail ihval ihtail =>
    rename_i s1 v1 r1 r2 vs rest1
    intro hg
    have hg1 : goodB r1 = true := goodB_of_skipWs hcomma (by decide)
    obtain ⟨body1, hb1, ⟨a1, t1, hat1, ha1⟩, -, hfr1⟩ := ihval hg1
    obtain ⟨w1, hw1, hr1⟩ := skipWs_decomp hcomma
    obtain ⟨w2, hw2, hr2⟩ := skipWs_decomp (rfl : skipWs r2 = skipWs r2)
    obtain ⟨body2, hb2, ⟨a2, t2, hat2, ha2⟩, ⟨b2, c2, hbc2, hc2⟩, hfr2⟩ := ihtail hg
    rw [hb2] at hr2
    refine ⟨body1 ++ (w1 ++ ',' :: (w2 ++ body2)), ?_,
      ⟨a1, t1 ++ (w1 ++ ',' :: (w2 ++ body2)), by rw [hat1]; simp, ha1⟩,
      ⟨body1 ++ (w1 ++ ',' :: (w2 ++ b2)), c2, by rw [hbc2]; simp, hc2⟩, ?_⟩
    · rw [hb1, hr1, hr2]; simp
    · intro z hz
      have hsk2 : skipWs (w2 ++ (body2 ++ z)) = body2 ++ z := by
        rw [hat2]
        simp only [List.cons_append]
        exact skipWs_append hw2 ha2
      have htd : Der PKind.arrTail (skipWs (w2 ++ (body2 ++ z))) (Json.arr vs) z :=
        der_congr (hfr2 z hz) hsk2.symm
      have hzA : goodB (w1 ++ ',' :: (w2 ++ (body2 ++ z))) = true :=
        goodB_ws_append hw1 (goodB_cons (by decide))
      have hd := Der.aCons (hfr1 (w1 ++ ',' :: (w2 ++ (body2 ++ z))) hzA)
        (skipWs_append hw1 (by decide)) htd
      exact der_congr hd (by simp)

end ATS

namespace ATS

/-! ### Branch-dispatch lemmas for the fuelled parser -/

theorem isPrefixOf_append {p t : Text} : p.isPrefixOf (p ++ t) = true :=
  List.isPrefixOf_iff_prefix.mpr ⟨t, rfl⟩

theorem isPrefixOf_cons_false {a b : Char} {p s : Text} (h : a = b → False) :
    (a :: p).isPrefixOf (b :: s) = false := by
  simp only [List.isPrefixOf]
  rw [beq_false_of_ne h]
  rfl

theorem lexNumber_none_head {c : Char} {t : Text} (hm : c = '-' → False)
    (hd : c.isDigit = false) : lexNumber (c :: t) = none := by
  have hg : ∀ r1, (c :: t) = '-' :: r1 → False := fun r1 hr => hm (consEqHead hr)
  have h0 : c = '0' → False := fun he => by rw [he] at hd; exact absurd hd (by decide)
  have hu : lexUInt (c :: t) = none := by
    rw [lexUInt.eq_2 c t (fun hcc => h0 hcc), if_neg (by simp [hd])]
  unfold lexNumber
  rw [lexInt.eq_2 _ hg, hu]

theorem lexNumber_none_minus {c : Char} {t : Text} (hd : c.isDigit = false) :
    lexNumber ('-' :: c :: t) = none := by
  have h0 : c = '0' → False := fun he => by rw [he] at hd; exact absurd hd (by decide)
  have hu : lexUInt (c :: t) = none := by
    rw [lexUInt.eq_2 c t (fun hcc => h0 hcc), if_neg (by simp [hd])]
  unfold lexNumber
  rw [lexInt.eq_1, hu]

theorem parseValue_objBranch {fuel : Nat} {r t : Text} {c : Char} (hshape : skipWs r = c :: t)
    (hc : c = '\x7d' → False) :
    parseValue (Nat.succ fuel) ('\x7b' :: r) = parseMembers fuel [] (skipWs r) := by
  rw [parseValue.eq_3]
  split
  next rest heq =>
    exfalso
    rw [hshape] at heq
    exact hc (consEqHead heq)
  next => rfl

theorem parseValue_arrBranch {fuel : Nat} {r t : Text} {c : Char} (hshape : skipWs r = c :: t)
    (hc : c = ']' → False) :
    parseValue (Nat.succ fuel) ('[' :: r) = parseElems fuel [] (skipWs r) := by
  rw [parseValue.eq_4]
  split
  next rest heq =>
    exfalso
    rw [hshape] at heq
    exact hc (consEqHead heq)
  next => rfl

theorem parseElems_comma {fuel : Nat} {acc : List Json} {s r1 r2 : Text} {v1 : Json}
    (hpv : parseValue fuel s = some (v1, r1)) (heq : skipWs r1 = ',' :: r2) :
    parseElems (Nat.succ fuel) acc s = parseElems fuel (acc ++ [v1]) (skipWs r2) := by
  rw [parseElems.eq_2]
  simp only [hpv, heq]

theorem parseElems_close {fuel : Nat} {acc : List Json} {s r1 r2 : Text} {v1 : Json}
    (hpv : parseValue fuel s = some (v1, r1)) (heq : skipWs r1 = ']' :: r2) :
    parseElems (Nat.succ fuel) acc s = some (Json.arr (acc ++ [v1]), r2) := by
  rw [parseElems.eq_2]
  simp only [hpv]
  split
  next rr heq2 =>
    exfalso
    have h3 := heq2.symm.trans heq
    exact absurd (consEqHead h3) (by decide)
  next rr heq2 =>
    have h3 := heq2.symm.trans heq
    have h4 : rr = r2 := by
      have h5 := congrArg List.tail h3
      simpa using h5
    rw [h4]
  next hg1 hg2 =>
    exact absurd heq (hg2 r2)

theorem parseMembers_comma {fuel : Nat} {acc : List (List Nat × Json)} {r r1 r2 r3 r4 : Text}
    {key : List Nat} {v1 : Json}
    (hls : lexString r = some (key, r1)) (hcolon : skipWs r1 = ':' :: r2)
    (hpv : parseValue fuel (skipWs r2) = some (v1, r3)) (hcomma : skipWs r3 = ',' :: r4) :
    parseMembers (Nat.succ fuel) acc ('"' :: r) =
      parseMembers fuel (acc ++ [(key, v1)]) (skipWs r4) := by
  rw [parseMembers.eq_2]
  simp only [hls, hcolon, hpv, hcomma]

theorem parseMembers_close {fuel : Nat} {acc : List (List Nat × Json)} {r r1 r2 r3 r4 : Text}
    {key : List Nat} {v1 : Json}
    (hls : lexString r = some (key, r1)) (hcolon : skipWs r1 = ':' :: r2)
    (hpv : parseValue fuel (skipWs r2) = some (v1, r3)) (hclose : skipWs r3 = '\x7d' :: r4) :
    parseMembers (Nat.succ fuel) acc ('"' :: r) = some (Json.obj (acc ++ [(key, v1)]), r4) := by
  rw [parseMembers.eq_2]
  simp only [hls, hcolon, hpv]
  split
  next rr heq2 =>
    exfalso
    have h3 := heq2.symm.trans hclose
    exact absurd (consEqHead h3) (by decide)
  next rr heq2 =>
    have h3 := heq2.symm.trans hclose
    have h4 : rr = r4 := by
      have h5 := congrArg List.tail h3
      simpa using h5
    rw [h4]
  next hg1 hg2 =>
    exact absurd hclose (hg2 r4)

/-- An object-tail derivation's input starts with a double quote. -/
theorem derObjHead {s : Text} {out : Json} {rest : Text} (h : Der PKind.objTail s out rest) :
    ∃ r0, s = '"' :: r0 := by
  cases h with
  | mLast hls hcolon hval hclose => exact ⟨_, rfl⟩
  | mCons hls hcolon hval hcomma htail => exact ⟨_, rfl⟩

/-- An array-tail derivation starts with a value derivation on the same input. -/
theorem derArrVal {s : Text} {out : Json} {rest : Text} (h : Der PKind.arrTail s out rest) :
    ∃ v r1, Der PKind.val s v r1 := by
  cases h with
  | aLast hval hclose => exact ⟨_, _, hval⟩
  | aCons hval hcomma htail => exact ⟨_, _, hval⟩

/-- A value derivation's input starts with one of the scanner's dispatch
characters. -/
theorem derValStart {s : Text} {v : Json} {rest : Text} (h : Der PKind.val s v rest) :
    ∃ c t, s = c :: t ∧
      (c = '"' ∨ c = '\x7b' ∨ c = '[' ∨ c = 'n' ∨ c = 't' ∨ c = 'f' ∨ c = 'N' ∨ c = 'I' ∨
        c = '-' ∨ c.isDigit = true) := by
  cases h with
  | vstr hls => exact ⟨_, _, rfl, Or.inl rfl⟩
  | vnull => exact ⟨_, _, rfl, Or.inr (Or.inr (Or.inr (Or.inl rfl)))⟩
  | vtrue => exact ⟨_, _, rfl, Or.inr (Or.inr (Or.inr (Or.inr (Or.inl rfl))))⟩
  | vfalse => exact ⟨_, _, rfl, Or.inr (Or.inr (Or.inr (Or.inr (Or.inr (Or.inl rfl)))))⟩
  | vnum hnum =>
    obtain ⟨c, t, hct, hc⟩ := lexNumber_head hnum
    refine ⟨c, t, hct, ?_⟩
    rcases hc with h1 | h1
    · exact Or.inr (Or.inr (Or.inr (Or.inr (Or.inr (Or.inr (Or.inr (Or.inr (Or.inl h1))))))))
    · exact Or.inr (Or.inr (Or.inr (Or.inr (Or.inr (Or.inr (Or.inr (Or.inr (Or.inr h1))))))))
  | vnan => exact ⟨_, _, rfl, Or.inr (Or.inr (Or.inr (Or.inr (Or.inr (Or.inr (Or.inl rfl))))))⟩
  | vinf =>
    exact ⟨_, _, rfl, Or.inr (Or.inr (Or.inr (Or.inr (Or.inr (Or.inr (Or.inr (Or.inl rfl)))))))⟩
  | vninf =>
    exact ⟨_, _, rfl,
      Or.inr (Or.inr (Or.inr (Or.inr (Or.inr (Or.inr (Or.inr (Or.inr (Or.inl rfl))))))))⟩
  | vobjE heq => exact ⟨_, _, rfl, Or.inr (Or.inl rfl)⟩
  | vobj hsub => exact ⟨_, _, rfl, Or.inr (Or.inl rfl)⟩
  | varrE heq => exact ⟨_, _, rfl, Or.inr (Or.inr (Or.inl rfl))⟩
  | varr hsub => exact ⟨_, _, rfl, Or.inr (Or.inr (Or.inl rfl))⟩

theorem valStart_ne_rb {c0 : Char}
    (hcs : c0 = '"' ∨ c0 = '\x7b' ∨ c0 = '[' ∨ c0 = 'n' ∨ c0 = 't' ∨ c0 = 'f' ∨ c0 = 'N' ∨
      c0 = 'I' ∨ c0 = '-' ∨ c0.isDigit = true) : c0 = ']' → False := by
  intro he
  subst he
  rcases hcs with h|h|h|h|h|h|h|h|h|h <;> exact absurd h (by decide)

theorem numStart_ne {c0 : Char} (hc0 : c0 = '-' ∨ c0.isDigit = true) {d : Char}
    (hd1 : d = '-' → False) (hd2 : d.isDigit = false) : c0 = d → False := by
  intro he
  subst he
  rcases hc0 with h1 | h1
  · exact hd1 h1
  · rw [h1] at hd2
    cases hd2

end ATS

namespace ATS

/-- Completeness: every derivation is found by the fuelled parser, at any
sufficient fuel, with array/object tails accumulating onto any prefix. -/
theorem derComplete {k : PKind} {s : Text} {out : Json} {rest : Text} (h : Der k s out rest) :
    ∀ fuel : Nat,
      (k = PKind.val → 2 * s.length + 2 ≤ fuel → parseValue fuel s = some (out, rest)) ∧
      (k = PKind.arrTail → 2 * s.length + 3 ≤ fuel → ∀ acc, ∃ vs, out = Json.arr vs ∧
        parseElems fuel acc s = some (Json.arr (acc ++ vs), rest)) ∧
      (k = PKind.objTail → 2 * s.length + 3 ≤ fuel → ∀ acc, ∃ kvs, out = Json.obj kvs ∧
        parseMembers fuel acc s = some (Json.obj (acc ++ kvs), rest)) := by
  induction h with
  | vstr hls =>
    rename_i r1 cs rest1
    intro fuel
    refine ⟨?_, ⟨fun hk => (nomatch hk), fun hk => (nomatch hk)⟩⟩
    intro _ hf
    cases fuel with
    | zero => omega
    | succ f =>
      rw [parseValue.eq_2]
      simp only [hls]
  | vnull =>
    rename_i rest1
    intro fuel
    refine ⟨?_, ⟨fun hk => (nomatch hk), fun hk => (nomatch hk)⟩⟩
    intro _ hf
    cases fuel with
    | zero => omega
    | succ f =>
      rw [parseValue.eq_5 _ f (fun r hr => absurd (consEqHead hr) (by decide))
        (fun r hr => absurd (consEqHead hr) (by decide))
        (fun r hr => absurd (consEqHead hr) (by decide))]
      rw [if_pos (show ("null".data).isPrefixOf ('n' :: 'u' :: 'l' :: 'l' :: rest1) = true from
        isPrefixOf_append)]
      rfl
  | vtrue =>
    rename_i rest1
    intro fuel
    refine ⟨?_, ⟨fun hk => (nomatch hk), fun hk => (nomatch hk)⟩⟩
    intro _ hf
    cases fuel with
    | zero => omega
    | succ f =>
      have hn1 : ("null".data).isPrefixOf ('t' :: 'r' :: 'u' :: 'e' :: rest1) = false :=
        isPrefixOf_cons_false (by decide)
      rw [parseValue.eq_5 _ f (fun r hr => absurd (consEqHead hr) (by decide))
        (fun r hr => absurd (consEqHead hr) (by decide))
        (fun r hr => absurd (consEqHead hr) (by decide))]
      rw [if_neg (by simp [hn1]),
        if_pos (show ("true".data).isPrefixOf ('t' :: 'r' :: 'u' :: 'e' :: rest1) = true from
          isPrefixOf_append)]
      rfl
  | vfalse =>
    rename_i rest1
    intro fuel
    refine ⟨?_, ⟨fun hk => (nomatch hk), fun hk => (nomatch hk)⟩⟩
    intro _ hf
    cases fuel with
    | zero => omega
    | succ f =>
      have hn1 : ("null".data).isPrefixOf ('f' :: 'a' :: 'l' :: 's' :: 'e' :: rest1) = false :=
        isPrefixOf_cons_false (by decide)
      have hn2 : ("true".data).isPrefixOf ('f' :: 'a' :: 'l' :: 's' :: 'e' :: rest1) = false :=
        isPrefixOf_cons_false (by decide)
      rw [parseValue.eq_5 _ f (fun r hr => absurd (consEqHead hr) (by decide))
        (fun r hr => absurd (consEqHead hr) (by decide))
        (fun r hr => absurd (consEqHead hr) (by decide))]
      rw [if_neg (by simp [hn1]), if_neg (by simp [hn2]),
        if_pos (show ("false".data).isPrefixOf ('f' :: 'a' :: 'l' :: 's' :: 'e' :: rest1) = true from
          isPrefixOf_append)]
      rfl
  | vnum hnum =>
    rename_i s1 lex1 rest1
    intro fuel
    refine ⟨?_, ⟨fun hk => (nomatch hk), fun hk => (nomatch hk)⟩⟩
    intro _ hf
    cases fuel with
    | zero => omega
    | succ f =>
      obtain ⟨c0, t0, hct, hc0⟩ := lexNumber_head hnum
      have hg1 : ∀ r2, s1 = '"' :: r2 → False := by
        intro r2 hr
        rw [hct] at hr
        exact numStart_ne hc0 (by decide) (by decide) (consEqHead hr)
      have hg2 : ∀ r2, s1 = '\x7b' :: r2 → False := by
        intro r2 hr
        rw [hct] at hr
        exact numStart_ne hc0 (by decide) (by decide) (consEqHead hr)
      have hg3 : ∀ r2, s1 = '[' :: r2 → False := by
        intro r2 hr
        rw [hct] at hr
        exact numStart_ne hc0 (by decide) (by decide) (consEqHead hr)
      have hn1 : ("null".data).isPrefixOf s1 = false := by
        rw [hct]
        exact isPrefixOf_cons_false (fun he => numStart_ne hc0 (by decide) (by decide) he.symm)
      have hn2 : ("true".data).isPrefixOf s1 = false := by
        rw [hct]
        exact isPrefixOf_cons_false (fun he => numStart_ne hc0 (by decide) (by decide) he.symm)
      have hn3 : ("false".data).isPrefixOf s1 = false := by
        rw [hct]
        exact isPrefixOf_cons_false (fun he => numStart_ne hc0 (by decide) (by decide) he.symm)
      rw [parseValue.eq_5 _ f hg1 hg2 hg3, if_neg (by simp [hn1]), if_neg (by simp [hn2]),
        if_neg (by simp [hn3])]
      simp only [hnum]
  | vnan =>
    rename_i rest1
    intro fuel
    refine ⟨?_, ⟨fun hk => (nomatch hk), fun hk => (nomatch hk)⟩⟩
    intro _ hf
    cases fuel with
    | zero => omega
    | succ f =>
      have hn1 : ("null".data).isPrefixOf ('N' :: 'a' :: 'N' :: rest1) = false :=
        isPrefixOf_cons_false (by decide)
      have hn2 : ("true".data).isPrefixOf ('N' :: 'a' :: 'N' :: rest1) = false :=
        isPrefixOf_cons_false (by decide)
      have hn3 : ("false".data).isPrefixOf ('N' :: 'a' :: 'N' :: rest1) = false :=
        isPrefixOf_cons_false (by decide)
      have hlex : lexNumber ('N' :: 'a' :: 'N' :: rest1) = none :=
        lexNumber_none_head (by decide) (by decide)
      rw [parseValue.eq_5 _ f (fun r hr => absurd (consEqHead hr) (by decide))
        (fun r hr => absurd (consEqHead hr) (by decide))
        (fun r hr => absurd (consEqHead hr) (by decide))]
      rw [if_neg (by simp [hn1]), if_neg (by simp [hn2]), if_neg (by simp [hn3])]
      simp only [hlex]
      rw [if_pos (show ("NaN".data).isPrefixOf ('N' :: 'a' :: 'N' :: rest1) = true from
        isPrefixOf_append)]
      rfl
  | vinf =>
    rename_i rest1
    intro fuel
    refine ⟨?_, ⟨fun hk => (nomatch hk), fun hk => (nomatch hk)⟩⟩
    intro _ hf
    cases fuel with
    | zero => omega
    | succ f =>
      have hn1 : ("null".data).isPrefixOf
          ('I' :: 'n' :: 'f' :: 'i' :: 'n' :: 'i' :: 't' :: 'y' :: rest1) = false :=
        isPrefixOf_cons_false (by decide)
      have hn2 : ("true".data).isPrefixOf
          ('I' :: 'n' :: 'f' :: 'i' :: 'n' :: 'i' :: 't' :: 'y' :: rest1) = false :=
        isPrefixOf_cons_false (by decide)
      have hn3 : ("false".data).isPrefixOf
          ('I' :: 'n' :: 'f' :: 'i' :: 'n' :: 'i' :: 't' :: 'y' :: rest1) = false :=
        isPrefixOf_cons_false (by decide)
      have hn4 : ("NaN".data).isPrefixOf
          ('I' :: 'n' :: 'f' :: 'i' :: 'n' :: 'i' :: 't' :: 'y' :: rest1) = false :=
        isPrefixOf_cons_false (by decide)
      have hlex : lexNumber ('I' :: 'n' :: 'f' :: 'i' :: 'n' :: 'i' :: 't' :: 'y' :: rest1) = none :=
        lexNumber_none_head (by decide) (by decide)
      rw [parseValue.eq_5 _ f (fun r hr => absurd (consEqHead hr) (by decide))
        (fun r hr => absurd (consEqHead hr) (by decide))
        (fun r hr => absurd (consEqHead hr) (by decide))]
      rw [if_neg (by simp [hn1]), if_neg (by simp [hn2]), if_neg (by simp [hn3])]
      simp only [hlex]
      rw [if_neg (by simp [hn4]),
        if_pos (show ("Infinity".data).isPrefixOf
            ('I' :: 'n' :: 'f' :: 'i' :: 'n' :: 'i' :: 't' :: 'y' :: rest1) = true from
          isPrefixOf_append)]
      rfl
  | vninf =>
    rename_i rest1
    intro fuel
    refine ⟨?_, ⟨fun hk => (nomatch hk), fun hk => (nomatch hk)⟩⟩
    intro _ hf
    cases fuel with
    | zero => omega
    | succ f =>
      have hn1 : ("null".data).isPrefixOf
          ('-' :: 'I' :: 'n' :: 'f' :: 'i' :: 'n' :: 'i' :: 't' :: 'y' :: rest1) = false :=
        isPrefixOf_cons_false (by decide)
      have hn2 : ("true".data).isPrefixOf
          ('-' :: 'I' :: 'n' :: 'f' :: 'i' :: 'n' :: 'i' :: 't' :: 'y' :: rest1) = false :=
        isPrefixOf_cons_false (by decide)
      have hn3 : ("false".data).isPrefixOf
          ('-' :: 'I' :: 'n' :: 'f' :: 'i' :: 'n' :: 'i' :: 't' :: 'y' :: rest1) = false :=
        isPrefixOf_cons_false (by decide)
      have hn4 : ("NaN".data).isPrefixOf
          ('-' :: 'I' :: 'n' :: 'f' :: 'i' :: 'n' :: 'i' :: 't' :: 'y' :: rest1) = false :=
        isPrefixOf_cons_false (by decide)
      have hn5 : ("Infinity".data).isPrefixOf
          ('-' :: 'I' :: 'n' :: 'f' :: 'i' :: 'n' :: 'i' :: 't' :: 'y' :: rest1) = false :=
        isPrefixOf_cons_false (by decide)
      have hlex :
          lexNumber ('-' :: 'I' :: 'n' :: 'f' :: 'i' :: 'n' :: 'i' :: 't' :: 'y' :: rest1) = none :=
        lexNumber_none_minus (by decide)
      rw [parseValue.eq_5 _ f (fun r hr => absurd (consEqHead hr) (by decide))
        (fun r hr => absurd (consEqHead hr) (by decide))
        (fun r hr => absurd (consEqHead hr) (by decide))]
      rw [if_neg (by simp [hn1]), if_neg (by simp [hn2]), if_neg (by simp [hn3])]
      simp only [hlex]
      rw [if_neg (by simp [hn4]), if_neg (by simp [hn5]),
        if_pos (show ("-Infinity".data).isPrefixOf
            ('-' :: 'I' :: 'n' :: 'f' :: 'i' :: 'n' :: 'i' :: 't' :: 'y' :: rest1) = true from
          isPrefixOf_append)]
      rfl
  | vobjE heq =>
    rename_i r1 rest1
    intro fuel
    refine ⟨?_, ⟨fun hk => (nomatch hk), fun hk => (nomatch hk)⟩⟩
    intro _ hf
    cases fuel with
    | zero => omega
    | succ f =>
      rw [parseValue.eq_3]
      simp only [heq]
  | vobj hsub ih =>
    rename_i r1 kvs rest1
    intro fuel
    refine ⟨?_, ⟨fun hk => (nomatch hk), fun hk => (nomatch hk)⟩⟩
    intro _ hf
    simp only [List.length_cons] at hf
    cases fuel with
    | zero => omega
    | succ f =>
      obtain ⟨r0, hr0⟩ := derObjHead hsub
      rw [parseValue_objBranch hr0 (by decide)]
      have hsl := skipWs_len r1
      obtain ⟨kvs2, hkv, hpm⟩ := ((ih f).2.2) rfl (by omega) []
      cases hkv
      simpa using hpm
  | varrE heq =>
    rename_i r1 rest1
    intro fuel
    refine ⟨?_, ⟨fun hk => (nomatch hk), fun hk => (nomatch hk)⟩⟩
    intro _ hf
    cases fuel with
    | zero => omega
    | succ f =>
      rw [parseValue.eq_4]
      simp only [heq]
  | varr hsub ih =>
    rename_i r1 vs rest1
    intro fuel
    refine ⟨?_, ⟨fun hk => (nomatch hk), fun hk => (nomatch hk)⟩⟩
    intro _ hf
    simp only [List.length_cons] at hf
    cases fuel with
    | zero => omega
    | succ f =>
      obtain ⟨v0, r0, hval0⟩ := derArrVal hsub
      obtain ⟨c0, t0, hct0, hcs⟩ := derValStart hval0
      rw [parseValue_arrBranch hct0 (valStart_ne_rb hcs)]
      have hsl := skipWs_len r1
      obtain ⟨vs2, hvv, hpe⟩ := ((ih f).2.1) rfl (by omega) []
      cases hvv
      simpa using hpe
  | mLast hls hcolon hval hclose ihval =>
    rename_i r1 k1 r1a r2 v1 r3 r4
    intro fuel
    refine ⟨fun hk => (nomatch hk), ⟨fun hk => (nomatch hk), ?_⟩⟩
    intro _ hf acc
    refine ⟨[(k1, v1)], rfl, ?_⟩
    simp only [List.length_cons] at hf
    cases fuel with
    | zero => omega
    | succ f =>
      obtain ⟨D, hD, -⟩ := lexString_spec _ _ _ hls
      have hlen1 : r1.length = D.length + (r1a.length + 1) := by
        rw [hD]; simp
      have hlen2 : (':' :: r2).length ≤ r1a.length := by
        rw [← hcolon]; exact skipWs_len r1a
      simp only [List.length_cons] at hlen2
      have hlen3 := skipWs_len r2
      have hpv : parseValue f (skipWs r2) = some (v1, r3) := (ihval f).1 rfl (by omega)
      rw [parseMembers_close hls hcolon hpv hclose]
  | mCons hls hcolon hval hcomma htail ihval ihtail =>
    rename_i r1 k1 r1a r2 v1 r3 r4 kvs rest1
    intro fuel
    refine ⟨fun hk => (nomatch hk), ⟨fun hk => (nomatch hk), ?_⟩⟩
    intro _ hf acc
    refine ⟨(k1, v1) :: kvs, rfl, ?_⟩
    simp only [List.length_cons] at hf
    cases fuel with
    | zero => omega
    | succ f =>
      obtain ⟨D, hD, -⟩ := lexString_spec _ _ _ hls
      have hlen1 : r1.length = D.length + (r1a.length + 1) := by
        rw [hD]; simp
      have hlen2 : (':' :: r2).length ≤ r1a.length := by
        rw [← hcolon]; exact skipWs_len r1a
      simp only [List.length_cons] at hlen2
      have hlen3 := skipWs_len r2
      have hlen4 : r3.length < (skipWs r2).length := derLen hval
      have hlen5 : (',' :: r4).length ≤ r3.length := by
        rw [← hcomma]; exact skipWs_len r3
      simp only [List.length_cons] at hlen5
      have hlen6 := skipWs_len r4
      have hpv : parseValue f (skipWs r2) = some (v1, r3) := (ihval f).1 rfl (by omega)
      rw [parseMembers_comma hls hcolon hpv hcomma]
      obtain ⟨kvs2, hkv, hpm⟩ := ((ihtail f).2.2) rfl (by omega) (acc ++ [(k1, v1)])
      cases hkv
      rw [hpm]
      simp
  | aLast hval hclose ihval =>
    rename_i s1 v1 r1 r2
    intro fuel
    refine ⟨fun hk => (nomatch hk), ⟨?_, fun hk => (nomatch hk)⟩⟩
    intro _ hf acc
    refine ⟨[v1], rfl, ?_⟩
    cases fuel with
    | zero => omega
    | succ f =>
      have hpv : parseValue f s1 = some (v1, r1) := (ihval f).1 rfl (by omega)
      rw [parseElems_close hpv hclose]
  | aCons hval hcomma htail ihval ihtail =>
    rename_i s1 v1 r1 r2 vs rest1
    intro fuel
    refine ⟨fun hk => (nomatch hk), ⟨?_, fun hk => (nomatch hk)⟩⟩
    intro _ hf acc
    refine ⟨v1 :: vs, rfl, ?_⟩
    cases fuel with
    | zero => omega
    | succ f =>
      have hpv : parseValue f s1 = some (v1, r1) := (ihval f).1 rfl (by omega)
      rw [parseElems_comma hpv hcomma]
      have hlen1 : r1.length < s1.length := derLen hval
      have hlen2 : (',' :: r2).length ≤ r1.length := by
        rw [← hcomma]; exact skipWs_len r1
      simp only [List.length_cons] at hlen2
      have hlen3 := skipWs_len r2
      obtain ⟨vs2, hvv, hpe⟩ := ((ihtail f).2.1) rfl (by omega) (acc ++ [v1])
      cases hvv
      rw [hpe]
      simp

end ATS

namespace ATS

/-- Python `str.strip()` does not change the result of a successful
`json.loads`: stripping surrounding whitespace preserves the decoded value. -/
theorem stripDecode {s : Text} {v : Json} (h : jsonDecodeE s = Except.ok v) :
    jsonDecodeE (pyStrip s) = Except.ok v := by
  unfold jsonDecodeE at h
  cases hp : parseValue (fuelOf s) (skipWs s) with
  | none =>
    simp only [hp] at h
    cases h
  | some pr =>
    obtain ⟨v1, rest⟩ := pr
    simp only [hp] at h
    by_cases hrest : skipWs rest = []
    · rw [if_pos hrest] at h
      cases h
      have hd : Der PKind.val (skipWs s) v rest := (parseSound (fuelOf s)).1 _ _ _ hp
      obtain ⟨c0, t0, hct, hc0⟩ := derValHead hd
      have hgrest : goodB rest = true := goodB_of_skipWs_nil hrest
      obtain ⟨body, hb, ⟨a, t, hat, ha⟩, ⟨b, c, hbc, hc⟩, hfr⟩ := derFrame hd hgrest
      rw [hat] at hb
      have hac : a = c0 := by
        rw [hb] at hct
        simp only [List.cons_append] at hct
        exact consEqHead hct
      have haP : isPyWs a = false := by rw [hac]; exact hc0
      obtain ⟨w1, hw1, hs1⟩ := skipWs_decomp (rfl : skipWs s = skipWs s)
      rw [hb] at hs1
      obtain ⟨wr, hwr, hrr⟩ := skipWs_decomp hrest
      have hrestP : ∀ d ∈ rest, isPyWs d = true := by
        intro d hdm
        rw [hrr] at hdm
        simp at hdm
        exact jsonWs_pyWs (hwr d hdm)
      have hw1P : ∀ d ∈ w1, isPyWs d = true := fun d hdm => jsonWs_pyWs (hw1 d hdm)
      have hstrip : pyStrip s = a :: t := by
        rw [hs1, ← List.append_assoc]
        refine pyStrip_mid hw1P hrestP (by simp) ?_ ?_
        · intro d hdm
          simp at hdm
          rw [← hdm]
          exact haP
        · intro d hdm
          rw [← hat, hbc] at hdm
          have hgl : (b ++ [c]).getLast? = some c := by simp
          rw [hgl] at hdm
          cases hdm
          exact hc
      have hd3 : Der PKind.val (a :: t) v [] := by
        have hd2 := hfr [] rfl
        rw [hat] at hd2
        exact der_congr hd2 (by simp)
      have hbodyhead : skipWs (a :: t) = a :: t := dropWhile_cons_false ha
      have hpv2 : parseValue (fuelOf (pyStrip s)) (skipWs (pyStrip s)) = some (v, []) := by
        rw [hstrip, hbodyhead]
        exact (derComplete hd3 (fuelOf (a :: t))).1 rfl (by unfold fuelOf; omega)
      unfold jsonDecodeE
      simp only [hpv2]
      rfl
    · rw [if_neg hrest] at h
      cases h

end ATS

namespace ATS

/-! ### The claims -/

/-- C1 (corrected): if the response text contains a single fenced JSON block
whose interior contains no triple backtick and decodes as JSON, the Extractor
succeeds with exactly the value of decoding that interior directly.  (The
backtick condition is needed: the cleanup of line 108 rewrites interiors
containing ``` — see the counterexample.) -/
theorem extractor_fenced_ok {txt interior : Text} {v : Json}
    (hf : SingleFenced txt interior) (ht : hasTicks interior = false)
    (hd : jsonDecodeE interior = Except.ok v) :
    extractJson txt = (some v, none) := by
  have hs : fencedSearch txt = some interior := singleFenced_search hf
  have h2 : jsonDecodeE (pyStrip (removeTicks interior)) = Except.ok v := by
    rw [removeTicks_eq_self ht]
    exact stripDecode hd
  have hc : candidateOf txt = some interior := by
    unfold candidateOf candidateWithFallback
    simp only [hs]
  unfold extractJson
  simp only [hc]
  unfold parseCleaned
  simp only [h2]

/-- C1 witness: a concrete fenced response extracts to the decoded interior. -/
theorem extractor_fenced_ok_witness :
    extractJson ("x```json\n\x7b\"a\": 1\x7d\n```y".data) =
      (some (Json.obj [([97], Json.num ['1'])]), none) :=
  @extractor_fenced_ok ("x```json\n\x7b\"a\": 1\x7d\n```y".data) ("\x7b\"a\": 1\x7d".data)
    (Json.obj [([97], Json.num ['1'])]) ⟨1, 17, by decide, by decide⟩ (by decide) rfl

/-- C1 counterexample: a single fenced block whose valid interior holds a
triple backtick inside a JSON string decodes on its own to the original
string, but the Extractor returns the value of the backtick-stripped text
instead, refuting the unconditional claim. -/
theorem extractor_fenced_cx :
    SingleFenced ("```json\n\x7b\"a\": \"x```y\"\x7d\n```".data)
      ("\x7b\"a\": \"x```y\"\x7d".data) ∧
    jsonDecodeE ("\x7b\"a\": \"x```y\"\x7d".data) =
      Except.ok (Json.obj [([97], Json.str [120, 96, 96, 96, 121])]) ∧
    extractJson ("```json\n\x7b\"a\": \"x```y\"\x7d\n```".data) =
      (some (Json.obj [([97], Json.str [120, 121])]), none) ∧
    Json.obj [([97], Json.str [120, 121])] ≠
      Json.obj [([97], Json.str [120, 96, 96, 96, 121])] :=
  ⟨⟨0, 22, by decide, by decide⟩, rfl, rfl, by simp⟩

/-- C2 (corrected): when no fenced block is present, the fallback matches
from the first `\x7b` to the last `\x7d`; if that greedy span contains no
triple backtick and decodes as JSON, the Extractor succeeds with its value.
(The original claim over "exactly one balanced span" fails: stray braces
after the balanced span corrupt the greedy match — see the counterexample.) -/
theorem extractor_brace_ok {pre mid suf : Text} {v : Json}
    (hnf : ¬ HasFenceStruct (pre ++ '\x7b' :: mid ++ '\x7d' :: suf))
    (hpre : '\x7b' ∉ pre) (hsuf : '\x7d' ∉ suf)
    (ht : hasTicks ('\x7b' :: mid ++ ['\x7d']) = false)
    (hd : jsonDecodeE ('\x7b' :: mid ++ ['\x7d']) = Except.ok v) :
    extractJson (pre ++ '\x7b' :: mid ++ '\x7d' :: suf) = (some v, none) := by
  have hfs := fencedSearch_none_of_not hnf
  have hbs := @braceSearch_decomp pre mid suf hpre hsuf
  have h2 : jsonDecodeE (pyStrip (removeTicks ('\x7b' :: mid ++ ['\x7d']))) = Except.ok v := by
    rw [removeTicks_eq_self ht]
    exact stripDecode hd
  have hc : candidateOf (pre ++ '\x7b' :: mid ++ '\x7d' :: suf) =
      some ('\x7b' :: mid ++ ['\x7d']) := by
    unfold candidateOf candidateWithFallback
    simp only [hfs]
    exact hbs
  unfold extractJson
  simp only [hc]
  unfold parseCleaned
  simp only [h2]

/-- C2 witness: a concrete fence-free response with one brace span extracts
to the decoded span. -/
theorem extractor_brace_ok_witness :
    extractJson ("ok \x7b\"a\": 1\x7d done".data) =
      (some (Json.obj [([97], Json.num ['1'])]), none) :=
  @extractor_brace_ok ("ok ".data) ("\"a\": 1".data) (" done".data)
    (Json.obj [([97], Json.num ['1'])])
    (fun hf => absurd (hasFence_mem hf) (by decide)) (by decide) (by decide) (by decide) rfl

/-- C2 counterexample: the text holds exactly one balanced brace span with
valid JSON, but a stray `\x7d` afterwards makes the greedy match swallow it,
so decoding fails with "Extra data" instead of returning the span's value. -/
theorem extractor_brace_cx :
    ¬ HasFenceStruct ("\x7b\"a\": 1\x7d \x7d".data) ∧
    jsonDecodeE ("\x7b\"a\": 1\x7d".data) = Except.ok (Json.obj [([97], Json.num ['1'])]) ∧
    extractJson ("\x7b\"a\": 1\x7d \x7d".data) =
      (none, some (malformedMsg ("Extra data".data) ("\x7b\"a\": 1\x7d \x7d".data))) :=
  ⟨fun hf => absurd (hasFence_mem hf) (by decide), rfl, rfl⟩

/-- C3 (confirmed): when a candidate is found but fails to decode, the
Extractor returns no value and an error that contains both the decode error
detail and the complete original response text. -/
theorem extractor_malformed {raw c d : Text} (hc : candidateOf raw = some c)
    (hd : jsonDecodeE (pyStrip (removeTicks c)) = Except.error d) :
    extractJson raw = (none, some (malformedMsg d raw)) ∧
    (∃ p q, malformedMsg d raw = p ++ d ++ q) ∧
    (∃ p, malformedMsg d raw = p ++ raw) := by
  refine ⟨?_,
    ⟨("Error: Model returned invalid JSON. Details:\n".data),
      ("\nRaw response:\n".data) ++ raw, by simp [malformedMsg]⟩,
    ⟨("Error: Model returned invalid JSON. Details:\n".data) ++ d ++
      ("\nRaw response:\n".data), by simp [malformedMsg]⟩⟩
  unfold extractJson
  simp only [hc]
  unfold parseCleaned
  simp only [hd]

/-- C3 witness: a trailing-comma object yields the decode failure message
carrying the detail and the raw text. -/
theorem extractor_malformed_witness :
    extractJson ("\x7b\"a\": 1,\x7d".data) =
      (none, some (malformedMsg ("Expecting value".data) ("\x7b\"a\": 1,\x7d".data))) :=
  (@extractor_malformed ("\x7b\"a\": 1,\x7d".data) ("\x7b\"a\": 1,\x7d".data)
    ("Expecting value".data) rfl rfl).1

/-- C4 (confirmed): when the response has no fenced block and no brace span
— in particular when it is empty or whitespace-only — the Extractor returns
no value and the not-found error carrying the complete original text. -/
theorem extractor_not_found {raw : Text} (hnf : ¬ HasFenceStruct raw)
    (hnb : ¬ HasBraceSpan raw) :
    extractJson raw = (none, some (notFoundMsg raw)) ∧
    ∃ p, notFoundMsg raw = p ++ raw := by
  have hfs := fencedSearch_none_of_not hnf
  have hbs : braceSearch raw = none := by
    cases hb : braceSearch raw with
    | none => rfl
    | some c => exact absurd (braceSearch_some_span hb) hnb
  have hc : candidateOf raw = none := by
    unfold candidateOf candidateWithFallback
    simp only [hfs]
    exact hbs
  refine ⟨?_, ⟨("Error: Could not find JSON in response. Raw response:\n".data), rfl⟩⟩
  unfold extractJson
  simp only [hc]

/-- C4 witness: a whitespace-only response yields the not-found error. -/
theorem extractor_not_found_witness :
    extractJson ("  \n ".data) = (none, some (notFoundMsg ("  \n ".data))) :=
  (extractor_not_found (fun hf => absurd (hasFence_mem hf) (by decide))
    (fun hb => absurd (hasBrace_mem hb) (by decide))).1

/-- C5 (confirmed): whenever a fenced block is present the brace-scan
fallback is never consulted — any fallback gives the same candidate — and
the candidate is the interior of the leftmost fence; the outcome of the
whole extraction is then decided by decoding the candidate after the
backtick removal and strip of lines 108-110. -/
theorem extractor_fence_priority {txt : Text} (h : HasFenceStruct txt) :
    ∃ interior,
      (∀ fb, candidateWithFallback fb txt = some interior) ∧
      (∃ pre suf, txt = pre ++ openFence ++ interior ++ closeFence ++ suf ∧
        ∀ p ∈ subOccs openFence txt, pre.length ≤ p) ∧
      (∀ v, jsonDecodeE (pyStrip (removeTicks interior)) = Except.ok v →
        extractJson txt = (some v, none)) ∧
      (∀ d, jsonDecodeE (pyStrip (removeTicks interior)) = Except.error d →
        extractJson txt = (none, some (malformedMsg d txt))) := by
  obtain ⟨c, hc⟩ := fencedSearch_isSome_of_hasFence h
  have hcand : candidateOf txt = some c := by
    unfold candidateOf candidateWithFallback
    simp only [hc]
  obtain ⟨i, j, pre, suf, hdc, hpl, hj, hmin, hclose⟩ := fencedSearch_spec hc
  refine ⟨c, ?_, ⟨pre, suf, hdc, ?_⟩, ?_, ?_⟩
  · intro fb
    unfold candidateWithFallback
    simp only [hc]
  · intro p hp
    rw [hpl]
    exact hmin p hp
  · intro v hv
    unfold extractJson
    simp only [hcand]
    unfold parseCleaned
    simp only [hv]
  · intro d hd
    unfold extractJson
    simp only [hcand]
    unfold parseCleaned
    simp only [hd]

/-- C5 witness: with two fenced blocks present, the first one's interior is
the candidate whatever the fallback, and its decode decides the result. -/
theorem extractor_fence_priority_witness :
    ∃ interior,
      (∀ fb, candidateWithFallback fb
        ("```json\n\x7b\"a\": 1\x7d\n```x```json\n\x7b\"b\": 2\x7d\n```".data) = some interior) ∧
      (∃ pre suf, ("```json\n\x7b\"a\": 1\x7d\n```x```json\n\x7b\"b\": 2\x7d\n```".data) =
          pre ++ openFence ++ interior ++ closeFence ++ suf ∧
        ∀ p ∈ subOccs openFence
          ("```json\n\x7b\"a\": 1\x7d\n```x```json\n\x7b\"b\": 2\x7d\n```".data),
          pre.length ≤ p) ∧
      (∀ v, jsonDecodeE (pyStrip (removeTicks interior)) = Except.ok v →
        extractJson ("```json\n\x7b\"a\": 1\x7d\n```x```json\n\x7b\"b\": 2\x7d\n```".data) =
          (some v, none)) ∧
      (∀ d, jsonDecodeE (pyStrip (removeTicks interior)) = Except.error d →
        extractJson ("```json\n\x7b\"a\": 1\x7d\n```x```json\n\x7b\"b\": 2\x7d\n```".data) =
          (none, some (malformedMsg d
            ("```json\n\x7b\"a\": 1\x7d\n```x```json\n\x7b\"b\": 2\x7d\n```".data)))) :=
  extractor_fence_priority
    ⟨[], "\x7b\"a\": 1\x7d".data, "x```json\n\x7b\"b\": 2\x7d\n```".data, by decide⟩

end ATS

namespace ATS

/-- C6 (confirmed): the extraction is a pure function of the response text —
two invocations on the same envelope produce the same result, and running one
invocation consumes exactly its own outcome, leaving the next untouched.
(Purity holds by construction: lines 101-117 read only `full_response` and
local variables, so the embedding is a function and determinism is equality
of its two applications.) -/
theorem extractor_deterministic (raw : Text) (o1 o2 : Option Json × Option Text)
    (h1 : generateJobRequirements (UpstreamOutcome.envelope raw) = o1)
    (h2 : generateJobRequirements (UpstreamOutcome.envelope raw) = o2) :
    o1 = o2 ∧
    generateWithRetries [UpstreamOutcome.envelope raw, UpstreamOutcome.envelope raw] =
      some (o1, [UpstreamOutcome.envelope raw]) := by
  constructor
  · rw [← h1, ← h2]
  · rw [← h1]
    rfl

/-- C6 witness: two runs on a concrete response agree. -/
theorem extractor_deterministic_witness :
    ((some (Json.obj [([97], Json.num ['1'])]), none) : Option Json × Option Text) =
      (some (Json.obj [([97], Json.num ['1'])]), none) ∧
    generateWithRetries [UpstreamOutcome.envelope ("\x7b\"a\": 1\x7d".data),
        UpstreamOutcome.envelope ("\x7b\"a\": 1\x7d".data)] =
      some ((some (Json.obj [([97], Json.num ['1'])]), none),
        [UpstreamOutcome.envelope ("\x7b\"a\": 1\x7d".data)]) :=
  extractor_deterministic ("\x7b\"a\": 1\x7d".data) _ _ rfl rfl

/-- C7 (corrected): connection failures classify as ConnectionFailure, every
extraction failure classifies as PayloadNotFound or MalformedPayload, and an
invocation consumes exactly one POST outcome (no retry).  (The original
three-case taxonomy is incomplete: the reachable `except Exception` branch
of line 121 produces an "Unexpected error" outside it — see the
counterexample.) -/
theorem generate_failure_taxonomy (d t : Text) :
    (∃ m, generateJobRequirements (UpstreamOutcome.connectionError d) = (none, some m) ∧
      classifyFailure m = some FailureClass.connectionFailure) ∧
    (∀ m, generateJobRequirements (UpstreamOutcome.envelope t) = (none, some m) →
      classifyFailure m = some FailureClass.payloadNotFound ∨
        classifyFailure m = some FailureClass.malformedPayload) ∧
    (∀ o posts, generateWithRetries (o :: posts) = some (generateJobRequirements o, posts)) := by
  refine ⟨⟨connectMsg d, rfl, ?_⟩, ?_, fun o posts => rfl⟩
  · unfold classifyFailure
    rw [if_pos (show (("Error connecting to Ollama: ".data)).isPrefixOf (connectMsg d) = true from
      isPrefixOf_append)]
  · intro m hm
    simp only [generateJobRequirements] at hm
    unfold extractJson at hm
    cases hc : candidateOf t with
    | none =>
      simp only [hc] at hm
      injection hm with h1 h2
      injection h2 with h3
      subst h3
      left
      unfold classifyFailure
      rw [if_neg (by simp [show (("Error connecting to Ollama: ".data)).isPrefixOf
        (notFoundMsg t) = false from rfl])]
      rw [if_pos (show (("Error: Could not find JSON in response.".data)).isPrefixOf
        (notFoundMsg t) = true from rfl)]
    | some c =>
      simp only [hc] at hm
      unfold parseCleaned at hm
      cases hd2 : jsonDecodeE (pyStrip (removeTicks c)) with
      | ok v =>
        simp only [hd2] at hm
        injection hm with h1 h2
        cases h2
      | error dd =>
        simp only [hd2] at hm
        injection hm with h1 h2
        injection h2 with h3
        subst h3
        right
        unfold classifyFailure
        rw [if_neg (by simp [show (("Error connecting to Ollama: ".data)).isPrefixOf
          (malformedMsg dd t) = false from rfl])]
        rw [if_neg (by simp [show (("Error: Could not find JSON in response.".data)).isPrefixOf
          (malformedMsg dd t) = false from rfl])]
        rw [if_pos (show (("Error: Model returned invalid JSON.".data)).isPrefixOf
          (malformedMsg dd t) = true from rfl)]

/-- C7 counterexample: the catch-all branch produces a failure message that
none of the three taxonomy classes matches. -/
theorem generate_unexpected_cx :
    generateJobRequirements (UpstreamOutcome.unexpectedError ("boom".data)) =
      (none, some (unexpectedMsg ("boom".data))) ∧
    classifyFailure (unexpectedMsg ("boom".data)) = none ∧
    unexpectedMsg ("boom".data) = ("Unexpected error: boom".data) :=
  ⟨rfl, rfl, rfl⟩

/-- C8 (corrected): the matching and report pages do not run the extraction
step at all — the match page renders and writes the raw response text, the
report page only strips whitespace — so on a response where the Extractor
would select a proper candidate, what the pages render is not that
candidate.  (This refutes the claim that every page parses the JSON
substring out of the model output before rendering.) -/
theorem pages_render_raw {t c : Text} (hc : candidateOf t = some c) (hne : c ≠ t) :
    matchPageOutput t = (t, t) ∧ reportPageOutput t = (pyStrip t, pyStrip t) ∧
    (matchPageOutput t).1 ≠ c ∧ (matchPageOutput t).2 ≠ c := by
  refine ⟨rfl, rfl, ?_, ?_⟩
  · intro h
    exact hne h.symm
  · intro h
    exact hne h.symm

/-- C8 witness: a concrete prose-wrapped response is rendered raw by the
pages although the Extractor would have selected the brace span. -/
theorem pages_render_raw_witness :
    matchPageOutput ("Sure! \x7b\"a\": 1\x7d thanks".data) =
      (("Sure! \x7b\"a\": 1\x7d thanks".data), ("Sure! \x7b\"a\": 1\x7d thanks".data)) ∧
    reportPageOutput ("Sure! \x7b\"a\": 1\x7d thanks".data) =
      (pyStrip ("Sure! \x7b\"a\": 1\x7d thanks".data),
        pyStrip ("Sure! \x7b\"a\": 1\x7d thanks".data)) ∧
    (matchPageOutput ("Sure! \x7b\"a\": 1\x7d thanks".data)).1 ≠ ("\x7b\"a\": 1\x7d".data) ∧
    (matchPageOutput ("Sure! \x7b\"a\": 1\x7d thanks".data)).2 ≠ ("\x7b\"a\": 1\x7d".data) :=
  pages_render_raw rfl (by decide)

/-- C8 counterexample: on a concrete response the match page renders the
full raw text and the report page the stripped raw text, even though the
extraction step would have selected the embedded JSON candidate. -/
theorem pages_no_parse_cx :
    (matchPageOutput ("Sure! \x7b\"a\": 1\x7d thanks".data)).1 =
      ("Sure! \x7b\"a\": 1\x7d thanks".data) ∧
    candidateOf ("Sure! \x7b\"a\": 1\x7d thanks".data) = some ("\x7b\"a\": 1\x7d".data) ∧
    ("Sure! \x7b\"a\": 1\x7d thanks".data) ≠ ("\x7b\"a\": 1\x7d".data) ∧
    (reportPageOutput ("Llama says: \x7b\"b\": 2\x7d ok".data)).1 =
      ("Llama says: \x7b\"b\": 2\x7d ok".data) :=
  ⟨rfl, rfl, by decide, rfl⟩

/-- C9 (confirmed): the cleanup removes every triple-backtick occurrence from
the candidate — none survives, wherever it sits, including inside JSON string
literals — and the Extractor parses the altered text: a candidate whose valid
JSON holds a ``` inside a string value parses to the altered string's value,
not the original's. -/
theorem cleanup_removes_ticks (c raw : Text) :
    hasTicks (removeTicks c) = false ∧
    (∀ v, jsonDecodeE (pyStrip (removeTicks c)) = Except.ok v →
      parseCleaned c raw = (some v, none)) ∧
    parseCleaned ("\x7b\"a\": \"x```y\"\x7d".data) ("\x7b\"a\": \"x```y\"\x7d".data) =
      (some (Json.obj [([97], Json.str [120, 121])]), none) ∧
    jsonDecodeE ("\x7b\"a\": \"x```y\"\x7d".data) =
      Except.ok (Json.obj [([97], Json.str [120, 96, 96, 96, 121])]) := by
  refine ⟨removeTicks_no_ticks c, ?_, rfl, rfl⟩
  intro v hv
  unfold parseCleaned
  simp only [hv]

/-- C10 (confirmed): whenever `generate_job_requirements` returns an error,
the result component is `None`; and on the extraction path both failure
messages end with the complete original response text. -/
theorem generate_error_pairs (o : UpstreamOutcome) (t : Text) :
    (∀ r m, generateJobRequirements o = (r, some m) → r = none) ∧
    (∀ r m, generateJobRequirements (UpstreamOutcome.envelope t) = (r, some m) →
      ∃ p, m = p ++ t) := by
  constructor
  · intro r m h
    cases o with
    | connectionError d =>
      simp only [generateJobRequirements] at h
      injection h with h1 h2
      exact h1.symm
    | envelope u =>
      simp only [generateJobRequirements] at h
      unfold extractJson at h
      cases hc : candidateOf u with
      | none =>
        simp only [hc] at h
        injection h with h1 h2
        exact h1.symm
      | some c =>
        simp only [hc] at h
        unfold parseCleaned at h
        cases hd : jsonDecodeE (pyStrip (removeTicks c)) with
        | ok v =>
          simp only [hd] at h
          injection h with h1 h2
          cases h2
        | error dd =>
          simp only [hd] at h
          injection h with h1 h2
          exact h1.symm
    | unexpectedError d =>
      simp only [generateJobRequirements] at h
      injection h with h1 h2
      exact h1.symm
  · intro r m h
    simp only [generateJobRequirements] at h
    unfold extractJson at h
    cases hc : candidateOf t with
    | none =>
      simp only [hc] at h
      injection h with h1 h2
      injection h2 with h3
      refine ⟨("Error: Could not find JSON in response. Raw response:\n".data), ?_⟩
      rw [← h3]
      rfl
    | some c =>
      simp only [hc] at h
      unfold parseCleaned at h
      cases hd : jsonDecodeE (pyStrip (removeTicks c)) with
      | ok v =>
        simp only [hd] at h
        injection h with h1 h2
        cases h2
      | error dd =>
        simp only [hd] at h
        injection h with h1 h2
        injection h2 with h3
        refine ⟨("Error: Model returned invalid JSON. Details:\n".data) ++ dd ++
          ("\nRaw response:\n".data), ?_⟩
        rw [← h3]
        simp [malformedMsg]

end ATS
